import Mathlib

/-!
Verification of lspnet-tools-node against its specification.

The definitions below are shallow embeddings of the TypeScript sources:
JavaScript numbers are modelled by `JSNum` (NaN, the two infinities, and
finite values represented exactly as rationals), fallible code returns
`Option`/`Except`, and the stateful reconciliation code is modelled as
explicit state passing over a `World` record.
-/

namespace LspNet

/-- Model of a JavaScript number: NaN, +Infinity, -Infinity or a finite
value.  Finite values are represented exactly as rationals; none of the
verified properties depends on binary rounding of sums. -/
inductive JSNum where
  | nan : JSNum
  | posInf : JSNum
  | negInf : JSNum
  | fin : ℚ → JSNum
  deriving DecidableEq, Repr

namespace JSNum

/-- JavaScript `+` on numbers (NaN propagates, `Infinity + -Infinity = NaN`). -/
def add : JSNum → JSNum → JSNum
  | nan, _ => nan
  | _, nan => nan
  | posInf, negInf => nan
  | negInf, posInf => nan
  | posInf, _ => posInf
  | _, posInf => posInf
  | negInf, _ => negInf
  | _, negInf => negInf
  | fin a, fin b => fin (a + b)

/-- `Math.max` on two numbers: NaN if either argument is NaN. -/
def jmax : JSNum → JSNum → JSNum
  | nan, _ => nan
  | _, nan => nan
  | posInf, _ => posInf
  | _, posInf => posInf
  | negInf, b => b
  | a, negInf => a
  | fin a, fin b => fin (max a b)

/-- `Math.min` on two numbers: NaN if either argument is NaN. -/
def jmin : JSNum → JSNum → JSNum
  | nan, _ => nan
  | _, nan => nan
  | negInf, _ => negInf
  | _, negInf => negInf
  | posInf, b => b
  | a, posInf => a
  | fin a, fin b => fin (min a b)

/-- `Number.isFinite`. -/
def isFinite : JSNum → Bool
  | fin _ => true
  | _ => false

/-- `Math.floor` restricted to finite values (the only place the code
applies it is behind a `Number.isFinite` guard). -/
def floorInt : JSNum → ℤ
  | fin q => ⌊q⌋
  | _ => 0

end JSNum

/-- `undefined + x` in JavaScript coerces `undefined` to NaN.  Models the
expression `cost + offset` in `doSyncBird` where `cost` may be the
`undefined` value read out of the ping-result map. -/
def jsAddU : Option JSNum → JSNum → JSNum
  | none, _ => JSNum.nan
  | some a, b => a.add b

/-- The `ospf` part of `RemotePeerInfo.extra` (schema `_remotePeerExtraSchema`
in nodemanager-client): `{cost, ping, offset, auth?}`.  The numeric fields
are JS numbers.  The parameter used below stands for `peer.extra?.ospf`,
flattening the two optional layers exactly as the `?.` chains in
`doSyncBird` do. -/
structure PeerOspf where
  cost : JSNum
  ping : Bool
  offset : JSNum
  deriving DecidableEq, Repr

/-- Whether `doSyncBird` puts the interface of this peer into
`toPingInterfaces`: the condition `peer.extra?.ospf?.ping`. -/
def pingRequested : Option PeerOspf → Bool
  | some o => o.ping
  | none => false

/-- The value `costMap.set(ifname, ...)` stores in `doSyncBird`
(controller.ts, first per-peer loop):
`let cost = peer.extra?.ospf?.cost ?? 1000; const offset = peer.extra?.ospf?.offset ?? 0;
 if (pingResultMap.has(ifname)) cost = pingResultMap.get(ifname)!;
 Math.min(Math.max(1, cost + offset), 65535)`.
`measure` is the trimmed-mean result `pingResultMap` holds for this
interface; the map has the key exactly when the ping was requested, and
its value is `undefined` (`none`) when the measurement produced no
samples. -/
def costMapValue (ospfExtra : Option PeerOspf) (measure : Option JSNum) : JSNum :=
  let cost0 : Option JSNum := some (match ospfExtra with
    | some o => o.cost
    | none => JSNum.fin 1000)
  let offset : JSNum := match ospfExtra with
    | some o => o.offset
    | none => JSNum.fin 0
  let cost : Option JSNum := if pingRequested ospfExtra then measure else cost0
  (jsAddU cost offset).jmax (JSNum.fin 1) |>.jmin (JSNum.fin 65535)

/-- The cost `doSyncBird` finally writes into `ospfAreaConfig["0"][ifname]`
(controller.ts, second per-peer loop):
`let useCost = costMap.get(ifname);
 if (useCost === undefined || !Number.isFinite(useCost)) useCost = 1000;
 else useCost = Math.floor(useCost);`
The `undefined` branch is unreachable because the first loop sets the key
for every peer. -/
def emittedCost (ospfExtra : Option PeerOspf) (measure : Option JSNum) : ℤ :=
  let useCost := costMapValue ospfExtra measure
  if !useCost.isFinite then 1000 else useCost.floorInt

/-- `TrimmedMean` (ping.ts): sort a copy ascending
(`[...numbers].sort((a, b) => a - b)`, modelled by insertion sort, which
yields the same sorted list of values), drop `Math.floor(length * 0.1)`
elements from each end, return the mean of the rest, falling back to the
untrimmed mean when the trimmed slice is empty; `undefined` for an empty
input.  `Math.floor(n * 0.1)` equals `n / 10` in natural division for
every possible JS array length. -/
def TrimmedMean (numbers : List ℚ) : Option ℚ :=
  if numbers.length < 1 then none
  else
    let sorted := numbers.insertionSort (· ≤ ·)
    let trimCount := sorted.length / 10
    let trimmed := (sorted.drop trimCount).take (sorted.length - trimCount - trimCount)
    if trimmed.length < 1 then
      some (sorted.sum / (sorted.length : ℚ))
    else
      some (trimmed.sum / (trimmed.length : ℚ))

/-- Modelled from the spec (§4.D): "Aggregate per ifname with trimmed mean:
sort ascending; drop `floor(n·0.1)` from each tail; if the trimmed set is
empty, fall back to the untrimmed mean; if no samples at all, result is
absent."  Written from the spec's words, to be compared with `TrimmedMean`
above, which is translated from ping.ts. -/
def TrimmedMeanSpec (numbers : List ℚ) : Option ℚ :=
  match numbers with
  | [] => none
  | _ =>
    let n := numbers.length
    let sorted := numbers.insertionSort (· ≤ ·)
    let k := n / 10
    let trimmed := ((sorted.drop k).reverse.drop k).reverse
    if trimmed.isEmpty then
      some (sorted.sum / (n : ℚ))
    else
      some (trimmed.sum / (trimmed.length : ℚ))

/-! ### Persistent store: the `simplekv` table (config-store.ts) -/

/-- One row of the `simplekv` table: `(key, value, expires)`, `expires`
nullable (`_setKey` stores SQL `NULL` when no TTL is given).  The value
column is kept generic: the only writer in the core stores
`JSON.stringify` of a `LocalUnderlayState`, and `JSON.parse` of that
string restores an equal object, so serialisation is modelled as the
identity and the column carries the payload type directly. -/
structure KVRow (α : Type) where
  value : α
  expires : Option ℤ
  deriving DecidableEq, Repr

/-- The `simplekv` table: association list keyed by the `key` column
(`UNIQUE(key)` in the schema). -/
abbrev SimpleKV (α : Type) : Type := List (String × KVRow α)

/-- `ConfigStore._getKey`: select the row; parse `{value, expires}` with
`z.object({value: z.unknown(), expires: z.number()})` — a `NULL` expires
column fails this parse and the whole call throws (`.error`); a numeric
`expires > now` deletes the row and yields `undefined`; otherwise the
stored value is returned.  `now` is `Math.floor(Date.now() / 1000)`.
Returns the result together with the table state after the call. -/
def kvGetKey {α : Type} (kv : SimpleKV α) (key : String) (now : ℤ) :
    Except String (Option α × SimpleKV α) :=
  match List.find? (fun r => r.1 == key) kv with
  | none => .ok (none, kv)
  | some (_, row) =>
    match row.expires with
    | none => .error "ZodError: expires: Expected number, received null"
    | some e =>
      if e > now then
        .ok (none, List.filter (fun r => r.1 != key) kv)
      else
        .ok (some row.value, kv)

/-- `ConfigStore._setKey`: upsert `(key, value, expires)` where `expires`
is `now + ttlSeconds` when a TTL is given and SQL `NULL` otherwise. -/
def kvSetKey {α : Type} (kv : SimpleKV α) (key : String) (value : α)
    (ttlSeconds : Option ℤ) (now : ℤ) : SimpleKV α :=
  let expires := ttlSeconds.map (fun t => now + t)
  if List.any kv (fun r => r.1 == key) then
    List.map (fun r => if r.1 == key then (key, KVRow.mk value expires) else r) kv
  else
    kv ++ [(key, KVRow.mk value expires)]

/-- `ConfigStore._deleteKey`. -/
def kvDeleteKey {α : Type} (kv : SimpleKV α) (key : String) : SimpleKV α :=
  List.filter (fun r => r.1 != key) kv

/-- `LocalUnderlayState` (config-store.ts, `_localUnderlayStateSchema`):
tagged union of a client record and a server record. -/
inductive LocalUnderlayState where
  | client (unit_name : String) (listen_port : ℤ) (server_ip : String)
      (server_port : ℤ) (username : Option String) (password : Option String)
  | server (unit_name : String) (listen_port : ℤ)
      (username : Option String) (password : Option String)
  deriving DecidableEq, Repr

/-- The `unit_name` field of either variant. -/
def LocalUnderlayState.unitName : LocalUnderlayState → String
  | .client u _ _ _ _ _ => u
  | .server u _ _ _ => u

/-- `ConfigStore.getLocalUnderlayState(ifname)`: `_getKey` under key
`underlay-worker-{ifname}`, then `JSON.parse` + schema parse of the
value (modelled as the identity, see `KVRow`). -/
def getLocalUnderlayState (kv : SimpleKV LocalUnderlayState) (ifname : String)
    (now : ℤ) : Except String (Option LocalUnderlayState × SimpleKV LocalUnderlayState) :=
  kvGetKey kv ("underlay-worker-" ++ ifname) now

/-- `ConfigStore.setLocalUnderlayState(ifname, state)`: `_setKey` with no
TTL, so the stored `expires` column is `NULL`. -/
def setLocalUnderlayState (kv : SimpleKV LocalUnderlayState) (ifname : String)
    (state : LocalUnderlayState) (now : ℤ) : SimpleKV LocalUnderlayState :=
  kvSetKey kv ("underlay-worker-" ++ ifname) state none now

/-- `ConfigStore.deleteLocalUnderlayState(ifname)`. -/
def deleteLocalUnderlayState (kv : SimpleKV LocalUnderlayState)
    (ifname : String) : SimpleKV LocalUnderlayState :=
  kvDeleteKey kv ("underlay-worker-" ++ ifname)

/-! ### iptables helpers (iptables.ts) -/

/-- JavaScript `String.prototype.includes`. -/
def jsIncludes (s pat : String) : Bool :=
  decide (pat.toList <:+: s.toList)

/-- `tryCheckIptablesRule`, as a function of the spawned process's exit
code and stderr: exit 0 means the rule exists; the kernel's "Bad rule" /
"No chain/target/match" messages on a non-zero exit mean it does not;
any other non-zero exit is an error. -/
def tryCheckIptablesRule (code : ℤ) (stderr : String) : Except String Bool :=
  if code ≠ 0 then
    if jsIncludes stderr "iptables: Bad rule (does a matching rule exist in that chain?)"
        || jsIncludes stderr "iptables: No chain/target/match by that name" then
      .ok false
    else
      .error ("Failed to check iptables rule: " ++ stderr)
  else
    .ok true

/-! ### Routing-daemon config generator (bird.ts) -/

/-- `CommonOSPFConfig` (bird.ts).  Numeric fields are integers in every
use the controller makes of them. -/
structure CommonOSPFConfig where
  area : Option ℤ := none
  cost : Option ℤ := none
  auth : Option String := none
  type : Option String := none
  deriving DecidableEq, Repr

/-- `BFDConfig` (bird.ts). -/
structure BFDConfig where
  intervalMs : Option ℤ := none
  txMs : Option ℤ := none
  rxMs : Option ℤ := none
  idleMs : Option ℤ := none
  multiplier : Option ℤ := none
  deriving DecidableEq, Repr

/-- Result of `formatLocalNetAndFilter`. -/
structure NetFilter where
  defineText : String
  filterText : String
  deriving DecidableEq, Repr

/-- `formatLocalNetAndFilter(defineName, direction, cidrs)` (bird.ts):
empty CIDR list yields no define and the filter `{direction} all`;
otherwise a named set define plus a filter accepting exactly when
`net !~ SET`. -/
def formatLocalNetAndFilter (defineName direction : String)
    (cidrs : List String) : NetFilter :=
  if cidrs.length < 1 then
    { defineText := "", filterText := direction ++ " all" }
  else
    { defineText := "define " ++ defineName ++ "=[" ++ String.intercalate "," cidrs ++ "];"
      filterText := direction ++ " filter \x7b\nif net !~ " ++ defineName
        ++ " then accept;\nelse reject;\n\x7d" }

/-- The `parts` list built for one interface inside `formatOSPFConfig`
(bird.ts): header, `bfd yes;` iff the interface has a BFD entry, then
`cost`/`type`/authentication when set, then the closing brace. -/
def ospfInterfaceParts (bfdConfig : List (String × BFDConfig))
    (interfaceName : String) (config : CommonOSPFConfig) : List String :=
  ["interface \"" ++ interfaceName ++ "\" \x7b"]
  ++ (if (List.find? (fun p => p.1 == interfaceName) bfdConfig).isSome
      then ["bfd yes;"] else [])
  ++ (match config.cost with
      | some c => ["cost " ++ toString c ++ ";"]
      | none => [])
  ++ (match config.type with
      | some t => ["type " ++ t ++ ";"]
      | none => [])
  ++ (match config.auth with
      | some a =>
        if a.length > 0 then
          ["authentication cryptographic;\npassword \"" ++ a
            ++ "\" \x7b\nalgorithm hmac sha512;\n\x7d;"]
        else []
      | none => [])
  ++ ["\x7d;"]

/-- One interface block of `formatOSPFConfig`: the parts joined by
newlines. -/
def formatOSPFInterfaceBlock (bfdConfig : List (String × BFDConfig))
    (interfaceName : String) (config : CommonOSPFConfig) : String :=
  String.intercalate "\n" (ospfInterfaceParts bfdConfig interfaceName config)

/-- `formatOSPFConfig` (bird.ts): one `area` block per entry, each
containing the interface blocks of that area. -/
def formatOSPFConfig (ospfAreaConfig : List (String × List (String × CommonOSPFConfig)))
    (bfdConfig : List (String × BFDConfig)) : String :=
  String.intercalate "\n" (ospfAreaConfig.map (fun area =>
    "area " ++ area.1 ++ " \x7b\n"
      ++ String.intercalate "\n" (area.2.map (fun i =>
            formatOSPFInterfaceBlock bfdConfig i.1 i.2))
      ++ "\n\x7d;"))

/-! ### OSPF LSDB parser (bird-ospf.ts) -/

/-- JavaScript `String.prototype.trim` (the inputs here contain only
spaces and tabs, on which the two whitespace notions agree). -/
def jsTrim (s : String) : String :=
  String.mk (((s.data.dropWhile Char.isWhitespace).reverse.dropWhile
    Char.isWhitespace).reverse)

/-- Character-level worker for `split(" ")`. -/
def jsSplitOnSpaceAux : List Char → List Char → List String
  | [], acc => [String.mk acc.reverse]
  | c :: rest, acc =>
    if c = ' ' then String.mk acc.reverse :: jsSplitOnSpaceAux rest []
    else jsSplitOnSpaceAux rest (c :: acc)

/-- JavaScript `s.split(" ")`: split at every single space, keeping empty
fragments (`"a  b" → ["a", "", "b"]`, `"" → [""]`). -/
def jsSplitOnSpace (s : String) : List String :=
  jsSplitOnSpaceAux s.data []

/-- JavaScript `String.prototype.startsWith`. -/
def jsStartsWith (s pat : String) : Bool :=
  List.isPrefixOf pat.data s.data

/-- `getBlockLevel`: the number of leading tab characters. -/
def getBlockLevel (line : String) : ℕ :=
  (line.data.takeWhile (fun c => c == '\t')).length

/-- JavaScript `parseInt(s, 10)`: skip leading whitespace, optional sign,
then the maximal decimal-digit prefix; `NaN` (here `none`) when no digit
follows. -/
def jsParseInt (s : String) : Option ℤ :=
  let t := s.toList.dropWhile Char.isWhitespace
  let sign : ℤ := match t with
    | '-' :: _ => -1
    | _ => 1
  let t := match t with
    | '-' :: r => r
    | '+' :: r => r
    | r => r
  let digits := t.takeWhile Char.isDigit
  if digits.isEmpty then none
  else some (sign * (digits.foldl (fun acc c => acc * 10 + (c.toNat - '0'.toNat)) 0 : ℕ))

/-- A `{routerId, metric}` entry (vlinks / routers / xrouters). -/
structure IdMetric where
  routerId : String
  metric : ℤ
  deriving DecidableEq, Repr

/-- A `{network, metric}` entry (stubnets / xnetworks). -/
structure NetMetric where
  network : String
  metric : ℤ
  deriving DecidableEq, Repr

/-- An `externals` / `nssaExternals` entry. -/
structure ExternalEntry where
  network : String
  metric : ℤ
  metricType : ℤ
  via : Option String
  tag : Option String
  deriving DecidableEq, Repr

/-- `RouterInfo` (bird-ospf.ts). -/
structure RouterInfo where
  routerId : String
  distance : ℤ
  vlinks : List IdMetric
  routers : List IdMetric
  stubnets : List NetMetric
  xnetworks : List NetMetric
  xrouters : List IdMetric
  externals : List ExternalEntry
  nssaExternals : List ExternalEntry
  deriving DecidableEq, Repr

/-- The zero-initialised `RouterInfo` built at the top of
`parseOSPFRouter`. -/
def emptyRouterInfo : RouterInfo :=
  { routerId := "", distance := 0, vlinks := [], routers := [], stubnets := []
    xnetworks := [], xrouters := [], externals := [], nssaExternals := [] }

/-- The shared body of the `external` / `nssa-ext` branches of
`parseOSPFRouter` (the TypeScript repeats this block verbatim for the
two kinds): `network = parts[1]`, `metric = parseInt(parts[3])` with an
assertion that it is a number, `metricType = 2` iff some token equals
`metric2`, and `via`/`tag` are the tokens right after the first `via` /
`tag` token when those appear.  `none` models the assertion throwing. -/
def parseExternalEntry (sline : String) : Option ExternalEntry :=
  let parts := jsSplitOnSpace sline
  match (parts.get? 3).bind jsParseInt with
  | none => none
  | some metric =>
    some { network := parts.getD 1 ""
           metric := metric
           metricType := if (parts.find? (fun p => p == "metric2")).isSome then 2 else 1
           via := match parts.findIdx? (fun p => p == "via") with
             | some i => parts.get? (i + 1)
             | none => none
           tag := match parts.findIdx? (fun p => p == "tag") with
             | some i => parts.get? (i + 1)
             | none => none }

/-- The per-keyword pattern `assert(parts.length === 4 && parts[2] === "metric")`
followed by `parseInt(parts[3])`, shared by the `vlink` / `router` /
`stubnet` / `xnetwork` / `xrouter` branches: yields `(parts[1], metric)`
or `none` when an assertion throws. -/
def parseFourTokenMetric (sline : String) : Option (String × ℤ) :=
  let parts := jsSplitOnSpace sline
  if parts.length == 4 && parts.getD 2 "" == "metric" then
    match jsParseInt (parts.getD 3 "") with
    | some m => some (parts.getD 1 "", m)
    | none => none
  else none

/-- Dispatch on one level-2 line inside `parseOSPFRouter`.  Unknown lines
are warned about and skipped; assertion failures abort (`none`). -/
def processRouterLine (info : RouterInfo) (sline : String) : Option RouterInfo :=
  if jsStartsWith sline "distance " then
    match ((jsSplitOnSpace sline).get? 1).bind jsParseInt with
    | some d => some { info with distance := d }
    | none => none
  else if jsStartsWith sline "vlink " then
    (parseFourTokenMetric sline).map (fun e =>
      { info with vlinks := info.vlinks ++ [{ routerId := e.1, metric := e.2 }] })
  else if jsStartsWith sline "router " then
    (parseFourTokenMetric sline).map (fun e =>
      { info with routers := info.routers ++ [{ routerId := e.1, metric := e.2 }] })
  else if jsStartsWith sline "stubnet " then
    (parseFourTokenMetric sline).map (fun e =>
      { info with stubnets := info.stubnets ++ [{ network := e.1, metric := e.2 }] })
  else if jsStartsWith sline "xnetwork " then
    (parseFourTokenMetric sline).map (fun e =>
      { info with xnetworks := info.xnetworks ++ [{ network := e.1, metric := e.2 }] })
  else if jsStartsWith sline "xrouter " then
    (parseFourTokenMetric sline).map (fun e =>
      { info with xrouters := info.xrouters ++ [{ routerId := e.1, metric := e.2 }] })
  else if jsStartsWith sline "external " then
    (parseExternalEntry sline).map (fun e =>
      { info with externals := info.externals ++ [e] })
  else if jsStartsWith sline "nssa-ext " then
    (parseExternalEntry sline).map (fun e =>
      { info with nssaExternals := info.nssaExternals ++ [e] })
  else
    some info

/-- The loop of `parseOSPFRouter`: skip blank lines, return on a line of
level < 2 (leaving it unconsumed), abort on a level > 2 line (the
`assert(blevel === 2)`), otherwise process the line.  Yields the router
info together with the unconsumed rest of the input. -/
def parseOSPFRouterGo (info : RouterInfo) :
    List String → Option (RouterInfo × List String)
  | [] => some (info, [])
  | line :: rest =>
    let sline := jsTrim line
    if sline.length < 1 then parseOSPFRouterGo info rest
    else if getBlockLevel line < 2 then some (info, line :: rest)
    else if getBlockLevel line ≠ 2 then none
    else
      match processRouterLine info sline with
      | some info2 => parseOSPFRouterGo info2 rest
      | none => none

/-- The loop of `parseOSPFArea`, with explicit fuel (the callers always
supply `length + 1`, which the loop never exhausts since every iteration
consumes at least one line). -/
def parseOSPFAreaGo : ℕ → List RouterInfo → List String →
    Option (List RouterInfo × List String)
  | 0, _, _ => none
  | _ + 1, routers, [] => some (routers, [])
  | fuel + 1, routers, line :: rest =>
    let sline := jsTrim line
    if sline.length < 1 then parseOSPFAreaGo fuel routers rest
    else if getBlockLevel line < 1 then some (routers, line :: rest)
    else if getBlockLevel line ≠ 1 then none
    else if jsStartsWith sline "router " then
      match parseOSPFRouterGo emptyRouterInfo rest with
      | some (info, rest') =>
        parseOSPFAreaGo fuel
          (routers ++ [{ info with routerId := (jsSplitOnSpace sline).getD 1 "" }]) rest'
      | none => none
    else parseOSPFAreaGo fuel routers rest

/-- JavaScript `Map.prototype.set` on an insertion-ordered association
list: replace in place when the key exists, append otherwise. -/
def jsMapSet {β : Type} (m : List (String × β)) (k : String) (v : β) :
    List (String × β) :=
  if m.any (fun p => p.1 == k) then
    m.map (fun p => if p.1 == k then (k, v) else p)
  else m ++ [(k, v)]

/-- The loop of `parseOSPFState`: top-level lines are `area <id>` or
`other ASBRs`; blank lines are skipped; any indented line trips the
`assert(blevel === 0)`. -/
def parseOSPFStateGo : ℕ → List (String × List RouterInfo) → List RouterInfo →
    List String → Option (List (String × List RouterInfo) × List RouterInfo)
  | 0, _, _, _ => none
  | _ + 1, areaMap, asbrs, [] => some (areaMap, asbrs)
  | fuel + 1, areaMap, asbrs, line :: rest =>
    let sline := jsTrim line
    if sline.length < 1 then parseOSPFStateGo fuel areaMap asbrs rest
    else if getBlockLevel line ≠ 0 then none
    else if jsStartsWith sline "area " then
      match parseOSPFAreaGo (rest.length + 1) [] rest with
      | some (routers, rest') =>
        parseOSPFStateGo fuel
          (jsMapSet areaMap ((jsSplitOnSpace sline).getD 1 "") routers) asbrs rest'
      | none => none
    else if jsStartsWith sline "other ASBRs" then
      match parseOSPFAreaGo (rest.length + 1) [] rest with
      | some (routers, rest') => parseOSPFStateGo fuel areaMap (asbrs ++ routers) rest'
      | none => none
    else parseOSPFStateGo fuel areaMap asbrs rest

/-- `parseOSPFState` on a list of input lines: the area → routers map in
insertion order, plus the `other ASBRs` list. -/
def parseOSPFState (lines : List String) :
    Option (List (String × List RouterInfo) × List RouterInfo) :=
  parseOSPFStateGo (lines.length + 1) [] [] lines

/-! ### Reconciliation model: kernel + store world state (controller.ts)

The imperative operations `doSyncPeers` issues — WireGuard device
create/assign/up/destroy, iptables rule check/append/delete and the
`iptables-save` dump, systemd unit start/stop, and the store — are
modelled as explicit state passing over a `World` record; a thrown
error/failed process is `none`.  External nondeterminism (DNS answers,
generated unit-name UUIDs, the clock) is collected in an `Env`. -/

/-- Kernel state of one WireGuard device, as far as the controller reads
or writes it (`wg show` dump fields and `wg set` arguments). -/
structure WGDev where
  addressCIDR : String
  mtu : ℤ
  privateKey : Option String := none
  listenPort : Option ℤ := none
  peerPublicKey : Option String := none
  endpoint : Option String := none
  keepalive : Option ℤ := none
  allowedIPs : Option String := none
  isUp : Bool := false
  deriving DecidableEq, Repr

/-- The mutable world `doSyncPeers` acts on: WireGuard devices of the
namespace (keyed by interface name), iptables chains (keyed by
`(table, chain)`, each a list of rule argument vectors), the `wgkey`
table rows (`(private, public)`), the `simplekv` table, the loaded
systemd units, and a counter feeding the UUID supply. -/
structure World where
  wg : List (String × WGDev)
  iptables : List ((String × String) × List (List String))
  wgkeys : List (String × String)
  kv : SimpleKV LocalUnderlayState
  units : List String
  uuidCount : ℕ
  deriving DecidableEq, Repr

/-- External nondeterminism: `resolveEndpointString` is the literal
`host:port` string `resolveEndpoint` produces for a `wg set endpoint`
argument (DNS failure = `none`); `resolveEndpointHost` is its `.host`
part, used by the relay-client path; `uuids` supplies
`crypto.randomUUID()` values; `now` is the unix clock in seconds. -/
structure Env where
  resolveEndpointString : String → Option String
  resolveEndpointHost : String → Option String
  uuids : ℕ → String
  now : ℤ

/-- Look up a device by interface name. -/
def findDev (w : World) (name : String) : Option WGDev :=
  (List.find? (fun p => p.1 == name) w.wg).map (fun p => p.2)

/-- `CreateWireGuardDevice` (device.ts): `ip link add`, move to the
namespace, assign the address, set the MTU.  `ip link add` fails when
the name is taken. -/
def CreateWireGuardDevice (w : World) (name addr : String) (mtu : ℤ) : Option World :=
  match List.find? (fun p => p.1 == name) w.wg with
  | some _ => none
  | none => some { w with wg := w.wg ++ [(name, { addressCIDR := addr, mtu := mtu })] }

/-- JS truthiness of an optional number (`0` and `undefined` are falsy). -/
def truthyN : Option ℤ → Bool
  | some n => n != 0
  | none => false

/-- JS truthiness of an optional string (`""` and `undefined` are falsy). -/
def truthyS : Option String → Bool
  | some s => s != ""
  | none => false

/-- Options of `AssignWireGuardDevice` (the source names the first field
`private`, which Lean reserves). -/
structure WGAssignOptions where
  privateKeyOpt : Option String := none
  listenPort : Option ℤ := none
  peerPublic : Option String := none
  endpoint : Option String := none
  keepalive : Option ℤ := none
  allowedIPs : Option String := none
  deriving DecidableEq, Repr

/-- Effect of the assembled `wg set` call on the device: the options are
applied under the same truthiness guards the source uses when building
`args` (endpoint/keepalive/allowed-ips only inside the `peerPublic`
branch). -/
def applyWGSet (d : WGDev) (priv : String) (o : WGAssignOptions)
    (ep : Option String) : WGDev :=
  { d with
    privateKey := some priv
    listenPort := if truthyN o.listenPort then o.listenPort else d.listenPort
    peerPublicKey := if truthyS o.peerPublic then o.peerPublic else d.peerPublicKey
    endpoint := if truthyS o.peerPublic then
        (match ep with | some e => some e | none => d.endpoint)
      else d.endpoint
    keepalive := if truthyS o.peerPublic && truthyN o.keepalive then o.keepalive
      else d.keepalive
    allowedIPs := if truthyS o.peerPublic && truthyS o.allowedIPs then o.allowedIPs
      else d.allowedIPs }

/-- `AssignWireGuardDevice` (device.ts): writes `options.private` to a
temp file (throws when it is `undefined`), resolves the endpoint when one
is passed together with a peer (DNS failure throws), then `wg set`.  A
missing device makes `wg set` fail. -/
def AssignWireGuardDevice (env : Env) (w : World) (name : String)
    (o : WGAssignOptions) : Option World :=
  match o.privateKeyOpt with
  | none => none
  | some priv =>
    let ep? : Option (Option String) :=
      if truthyS o.peerPublic && truthyS o.endpoint then
        match env.resolveEndpointString (o.endpoint.getD "") with
        | none => none
        | some e => some (some e)
      else some none
    match ep? with
    | none => none
    | some ep =>
      match List.find? (fun p => p.1 == name) w.wg with
      | none => none
      | some _ => some { w with wg := w.wg.map (fun p =>
          if p.1 == name then (p.1, applyWGSet p.2 priv o ep) else p) }

/-- `UpWireGuardDevice` (device.ts): `ip link set up`; fails on a missing
device. -/
def UpWireGuardDevice (w : World) (name : String) : Option World :=
  match List.find? (fun p => p.1 == name) w.wg with
  | none => none
  | some _ => some { w with wg := w.wg.map (fun p =>
      if p.1 == name then (p.1, { p.2 with isUp := true }) else p) }

/-- `tryDestroyDevice` (device.ts): list first, delete only when present;
never fails. -/
def tryDestroyDevice (w : World) (name : String) : World :=
  { w with wg := w.wg.filter (fun p => p.1 != name) }

/-- Rules of one `(table, chain)`. -/
def chainRules (w : World) (tc : String × String) : Option (List (List String)) :=
  (List.find? (fun p => p.1 == tc) w.iptables).map (fun p => p.2)

/-- Rewrite the rules of one `(table, chain)` in place. -/
def setChainRules (w : World) (tc : String × String)
    (f : List (List String) → List (List String)) : World :=
  { w with iptables := w.iptables.map (fun p =>
      if p.1 == tc then (p.1, f p.2) else p) }

/-- The model counterpart of `tryCheckIptablesRule` against the world:
exit 0 iff the exact rule is present; a missing chain or missing rule is
one of the two `false`-mapped kernel errors. -/
def checkIptablesRuleW (w : World) (t c : String) (args : List String) : Bool :=
  match chainRules w (t, c) with
  | none => false
  | some rules => rules.contains args

/-- `tryAppendIptablesRule`: append (`iptables -A`) unless the rule is
already present; `-A` on a missing chain fails. -/
def tryAppendIptablesRuleW (w : World) (t c : String) (args : List String) :
    Option World :=
  if checkIptablesRuleW w t c args then some w
  else match chainRules w (t, c) with
    | none => none
    | some _ => some (setChainRules w (t, c) (fun rs => rs ++ [args]))

/-- `tryDeleteIptablesRule`: delete (`iptables -D`, first match) only when
the check says the rule exists; never fails. -/
def tryDeleteIptablesRuleW (w : World) (t c : String) (args : List String) : World :=
  if checkIptablesRuleW w t c args then
    setChainRules w (t, c) (fun rs => rs.erase args)
  else w

/-- One line of `iptables-save` output for a rule of a chain. -/
def renderRule (chain : String) (args : List String) : String :=
  String.mk (List.intercalate [' '] (("-A" :: chain :: args).map String.data))

/-- `GetAllIPTablesRules().get(table)`: the `-A` lines of every chain of
the table, in dump order. -/
def dumpTableRules (w : World) (t : String) : List String :=
  ((w.iptables.filter (fun p => p.1.1 == t)).map
    (fun p => p.2.map (renderRule p.1.2))).flatten

/-- `StopSystemdServiceBestEffort`: stop the unit if loaded; never
fails. -/
def stopSystemdServiceBestEffort (w : World) (unit : String) : World :=
  { w with units := w.units.filter (fun u => u != unit) }

/-- `formatUnitname(namespace, type)`: `networktools-{ns}-{type}-{uuid}`,
drawing the next UUID from the supply. -/
def formatUnitname (env : Env) (w : World) (ns mid : String) : String × World :=
  ("networktools-" ++ ns ++ "-" ++ mid ++ "-" ++ env.uuids w.uuidCount,
   { w with uuidCount := w.uuidCount + 1 })

/-- `config_gost_relay_client` of a peer's `extra.underlay`. -/
structure GostRelayClientConfig where
  listen_port : ℤ
  server_addr : String
  server_port : ℤ
  username : Option String := none
  password : Option String := none
  deriving DecidableEq, Repr

/-- `config_gost_relay_server` of a peer's `extra.underlay`. -/
structure GostRelayServerConfig where
  listen_port : ℤ
  username : Option String := none
  password : Option String := none
  deriving DecidableEq, Repr

/-- The `underlay` union of `RemotePeerInfo.extra`. -/
inductive UnderlayProvider where
  | gost_relay_client (config : GostRelayClientConfig)
  | gost_relay_server (config : GostRelayServerConfig)
  deriving DecidableEq, Repr

/-- `RemotePeerInfo` as `doSyncPeers`/`doSyncBird` consume it; `ospf` and
`underlay` stand for `peer.extra?.ospf` and `peer.extra?.underlay`. -/
structure RemotePeer where
  id : ℤ
  publicKey : String
  peerPublicKey : String
  addressCIDR : String
  listenPort : ℤ
  mtu : ℤ
  keepalive : ℤ
  endpoint : String
  ospf : Option PeerOspf := none
  underlay : Option UnderlayProvider := none
  deriving DecidableEq, Repr

/-- The interface name `{namespace}-{peer.id}`. -/
def peerIfname (ns : String) (p : RemotePeer) : String :=
  ns ++ "-" ++ toString p.id

/-- `withDefaultNumber` (utils) on the schema-validated integers that
reach it: `0` (like `undefined`/`NaN`/`Infinity`, which the zod schema
excludes) falls back to the default. -/
def withDefaultNumber (n d : ℤ) : ℤ :=
  if n = 0 then d else n

/-- Modelled from the spec: `isEmptyString` lives in the utils module,
whose source is not in the repository snapshot; the spec describes it as
the single "non-empty optional string" predicate, applied here to plain
strings. -/
def isEmptyString (s : String) : Bool :=
  s == ""

/-- The JS `Map(pairs)` built from the `wgkey` rows as
`public → private`: later inserts overwrite, so look up the last
matching row. -/
def wgKeyMapLookup (keys : List (String × String)) (pub : String) : Option String :=
  (List.find? (fun k => k.2 == pub) keys.reverse).map (fun k => k.1)

/-- `Controller.doSyncRemoveLocalUnderlay`: stop the unit (best-effort),
delete the store record. -/
def doSyncRemoveLocalUnderlay (w : World) (ifname : String)
    (st : LocalUnderlayState) : World :=
  let w1 := stopSystemdServiceBestEffort w (st.unitName ++ ".service")
  { w1 with kv := deleteLocalUnderlayState w1.kv ifname }

/-- `Controller.doSyncCreateLocalUnderlay`.  The client branch starts the
relay unit, persists the record, then calls `AssignWireGuardDevice`
without the (statically required) `private` option — `undefined` reaches
the temp-key `writeFile`, which throws, so this branch never completes.
The server branch reads the live WireGuard state (fails when the device
is missing), starts the unit and persists the record. -/
def doSyncCreateLocalUnderlay (env : Env) (w : World) (ns : String)
    (peer : RemotePeer) (ifname : String) : Option World :=
  match peer.underlay with
  | none => none
  | some (.gost_relay_client cfg) =>
    let serverIP? : Option String :=
      if isEmptyString cfg.server_addr then env.resolveEndpointHost peer.endpoint
      else some cfg.server_addr
    match serverIP? with
    | none => none
    | some serverIP =>
      let uw := formatUnitname env w ns "worker"
      let w2 := { uw.2 with units := uw.2.units ++ [uw.1] }
      let st := LocalUnderlayState.client uw.1 cfg.listen_port serverIP
        cfg.server_port none none
      let w3 := { w2 with kv := setLocalUnderlayState w2.kv ifname st env.now }
      AssignWireGuardDevice env w3 ifname
        { peerPublic := some peer.publicKey
          endpoint := some ("127.0.0.1:" ++ toString cfg.listen_port) }
  | some (.gost_relay_server cfg) =>
    match findDev w ifname with
    | none => none
    | some _ =>
      let uw := formatUnitname env w ns "worker"
      let w2 := { uw.2 with units := uw.2.units ++ [uw.1] }
      let st := LocalUnderlayState.server uw.1 cfg.listen_port none none
      some { w2 with kv := setLocalUnderlayState w2.kv ifname st env.now }

/-- `Controller.doSyncPeerUnderlay`: read the stored record (a throwing
read aborts the tick), then walk the four (local, remote) cases, with the
recreate conditions of the (set, set) case. -/
def doSyncPeerUnderlay (env : Env) (w : World) (ns : String)
    (peer : RemotePeer) : Option World :=
  let ifname := peerIfname ns peer
  match getLocalUnderlayState w.kv ifname env.now with
  | .error _ => none
  | .ok res =>
    let w := { w with kv := res.2 }
    match res.1, peer.underlay with
    | none, none => some w
    | none, some _ => doSyncCreateLocalUnderlay env w ns peer ifname
    | some st, none => some (doSyncRemoveLocalUnderlay w ifname st)
    | some st, some ru =>
      let needRecreate : Bool :=
        match st, ru with
        | .client _ lp sip sp _ _, .gost_relay_client cfg =>
          (lp != cfg.listen_port) || (sp != cfg.server_port) ||
            (!isEmptyString cfg.server_addr && (sip != cfg.server_addr))
        | .server _ lp _ _, .gost_relay_server cfg => lp != cfg.listen_port
        | _, _ => true
      if needRecreate then
        doSyncCreateLocalUnderlay env (doSyncRemoveLocalUnderlay w ifname st)
          ns peer ifname
      else some w

/-- `Controller.doSyncPeerEndpoint`: compare the dumped keepalive of the
device's (single) peer with the desired one and `wg set
persistent-keepalive` when they differ; a dump with no peer entry throws
(`Object.keys(localState.peers)[0]` is `undefined`). -/
def doSyncPeerEndpoint (w : World) (peer : RemotePeer) (ifname : String)
    (localState : WGDev) : Option World :=
  match localState.peerPublicKey with
  | none => none
  | some _ =>
    if localState.keepalive == some peer.keepalive then some w
    else
      match List.find? (fun p => p.1 == ifname) w.wg with
      | none => none
      | some _ => some { w with wg := w.wg.map (fun p =>
          if p.1 == ifname then
            (p.1, { p.2 with keepalive :=
              if peer.keepalive == 0 then none else some peer.keepalive })
          else p) }

/-- The per-peer body of the first loop of `Controller.doSyncPeers`:
`dump` is the `DumpAllWireGuardState` snapshot taken before the loop and
`keys` the `wgkey` rows. -/
def processPeer (env : Env) (ns : String) (dump : List (String × WGDev))
    (keys : List (String × String)) (w : World) (peer : RemotePeer) :
    Option World :=
  let ifname := peerIfname ns peer
  match List.find? (fun p => p.1 == ifname) dump with
  | none =>
    match wgKeyMapLookup keys peer.publicKey with
    | none => none
    | some priv =>
      match CreateWireGuardDevice w ifname peer.addressCIDR
          (withDefaultNumber peer.mtu 1420) with
      | none => none
      | some w1 =>
        match AssignWireGuardDevice env w1 ifname
            { privateKeyOpt := some priv, listenPort := some peer.listenPort
              peerPublic := some peer.peerPublicKey, endpoint := some peer.endpoint
              keepalive := some peer.keepalive, allowedIPs := some "0.0.0.0/0" } with
        | none => none
        | some w2 =>
          match UpWireGuardDevice w2 ifname with
          | none => none
          | some w3 =>
            match (if peer.listenPort ≠ 0 then
                tryAppendIptablesRuleW w3 "filter" (ns ++ "-INPUT")
                  ["-p", "udp", "--dport", toString peer.listenPort, "-j", "ACCEPT",
                   "-m", "comment", "--comment", "#peer_" ++ ifname ++ "#"]
              else some w3) with
            | none => none
            | some w4 =>
              if peer.underlay.isSome then doSyncPeerUnderlay env w4 ns peer
              else some w4
  | some dev =>
    match doSyncPeerUnderlay env w ns peer with
    | none => none
    | some w1 =>
      if peer.underlay.isNone then doSyncPeerEndpoint w1 peer ifname dev.2
      else some w1

/-- The rule-purge loop inside the stale branch: every line of the
`filter` dump that contains both `{ns}-INPUT` and `#peer_{ifname}#` is
replayed as a delete of `line.split(" ").slice(2)`. -/
def purgeStaleRules (ns ifn : String) (lines : List String) (w : World) : World :=
  lines.foldl (fun w line =>
    if jsIncludes line (ns ++ "-INPUT") && jsIncludes line ("#peer_" ++ ifn ++ "#") then
      tryDeleteIptablesRuleW w "filter" (ns ++ "-INPUT") ((jsSplitOnSpace line).drop 2)
    else w) w

/-- The per-interface body of the stale loop of `doSyncPeers`: destroy
the device, re-dump iptables, purge the tagged rules. -/
def processStale (ns : String) (w : World) (ifn : String) : World :=
  let w1 := tryDestroyDevice w ifn
  purgeStaleRules ns ifn (dumpTableRules w1 "filter") w1

/-- The first (per-peer) loop of `doSyncPeers`, sequencing `processPeer`
over the peer list and aborting on the first error. -/
def processPeersLoop (env : Env) (ns : String) (dump : List (String × WGDev))
    (keys : List (String × String)) : World → List RemotePeer → Option World
  | w, [] => some w
  | w, q :: rest =>
    match processPeer env ns dump keys w q with
    | none => none
    | some w' => processPeersLoop env ns dump keys w' rest

/-- `Controller.doSyncPeers`: snapshot the WireGuard state and key rows,
run the per-peer loop, then destroy every dumped interface that matched
no current peer and purge its tagged INPUT rules. -/
def doSyncPeers (env : Env) (ns : String) (peers : List RemotePeer)
    (w : World) : Option World :=
  let dump := w.wg
  let keys := w.wgkeys
  match processPeersLoop env ns dump keys w peers with
  | none => none
  | some w1 =>
    let staleNames := (dump.map (fun p => p.1)).filter
      (fun n => !(peers.any (fun p => peerIfname ns p == n)))
    some (staleNames.foldl (processStale ns) w1)

/-! ### Helper lemmas -/

set_option maxHeartbeats 1000000

/-- `Nat.digitChar` never yields a space. -/
theorem digitChar_ne_space (n : ℕ) : Nat.digitChar n ≠ ' ' := by
  by_cases h : n < 16
  · interval_cases n <;> decide
  · unfold Nat.digitChar
    repeat rw [if_neg (by omega)]
    decide

/-- `Nat.toDigitsCore` yields no space (in base 10). -/
theorem toDigitsCore_ne_space : ∀ (fuel n : ℕ) (acc : List Char),
    (∀ c ∈ acc, c ≠ ' ') → ∀ c ∈ Nat.toDigitsCore 10 fuel n acc, c ≠ ' ' := by
  intro fuel
  induction fuel with
  | zero =>
    intro n acc hacc c hc
    rw [Nat.toDigitsCore] at hc
    exact hacc c hc
  | succ f ih =>
    intro n acc hacc c hc
    rw [Nat.toDigitsCore] at hc
    split at hc
    · rcases List.mem_cons.mp hc with h | h
      · rw [h]; exact digitChar_ne_space _
      · exact hacc c h
    · refine ih _ _ ?_ c hc
      intro c' hc'
      rcases List.mem_cons.mp hc' with h | h
      · rw [h]; exact digitChar_ne_space _
      · exact hacc c' h

/-- Decimal `toString` of an integer contains no space. -/
theorem toString_int_ne_space (i : ℤ) : ∀ c ∈ (toString i).data, c ≠ ' ' := by
  have hnat : ∀ m : ℕ, ∀ c ∈ (toString m).data, c ≠ ' ' := by
    intro m c hc
    have : (toString m).data = Nat.toDigits 10 m := rfl
    rw [this, Nat.toDigits] at hc
    exact toDigitsCore_ne_space _ _ _ (by simp) c hc
  cases i with
  | ofNat m => exact hnat m
  | negSucc m =>
    intro c hc
    have : (toString (Int.negSucc m)).data = '-' :: (toString (m + 1)).data := by
      show ("-" ++ toString (m + 1)).data = _
      rw [String.data_append]
      rfl
    rw [this] at hc
    rcases List.mem_cons.mp hc with h | h
    · rw [h]; decide
    · exact hnat (m + 1) c h

/-- Splitting a space-free character list yields the list itself. -/
theorem jsSplitOnSpaceAux_no_space (cs : List Char) (acc : List Char)
    (h : ∀ c ∈ cs, c ≠ ' ') :
    jsSplitOnSpaceAux cs acc = [String.mk (acc.reverse ++ cs)] := by
  induction cs generalizing acc with
  | nil => simp [jsSplitOnSpaceAux]
  | cons c rest ih =>
    rw [jsSplitOnSpaceAux, if_neg (h c (by simp))]
    rw [ih (c :: acc) (fun c' hc' => h c' (by simp [hc']))]
    simp

/-- Splitting `cs ++ ' ' :: rest` with space-free `cs` peels off `cs`. -/
theorem jsSplitOnSpaceAux_append_space (cs rest : List Char) (acc : List Char)
    (h : ∀ c ∈ cs, c ≠ ' ') :
    jsSplitOnSpaceAux (cs ++ ' ' :: rest) acc
      = String.mk (acc.reverse ++ cs) :: jsSplitOnSpaceAux rest [] := by
  induction cs generalizing acc with
  | nil => simp [jsSplitOnSpaceAux]
  | cons c cs' ih =>
    rw [List.cons_append, jsSplitOnSpaceAux, if_neg (h c (by simp))]
    rw [ih (c :: acc) (fun c' hc' => h c' (by simp [hc']))]
    simp

/-- Splitting the space-intercalation of space-free fragments recovers
the fragments. -/
theorem jsSplit_intercalate : ∀ (l : List (List Char)), l ≠ [] →
    (∀ a ∈ l, ∀ c ∈ a, c ≠ ' ') →
    jsSplitOnSpace (String.mk (List.intercalate [' '] l)) = l.map String.mk := by
  intro l
  induction l with
  | nil => intro h; exact absurd rfl h
  | cons a rest ih =>
    intro _ hfree
    cases rest with
    | nil =>
      rw [jsSplitOnSpace]
      show jsSplitOnSpaceAux (List.intercalate [' '] [a]) [] = _
      rw [List.intercalate]
      simp only [List.intersperse_singleton, List.flatten]
      rw [List.append_nil, jsSplitOnSpaceAux_no_space a [] (hfree a (by simp))]
      simp
    | cons b rest' =>
      rw [jsSplitOnSpace]
      show jsSplitOnSpaceAux (List.intercalate [' '] (a :: b :: rest')) [] = _
      have hstep : List.intercalate [' '] (a :: b :: rest')
          = a ++ ' ' :: List.intercalate [' '] (b :: rest') := by
        rw [List.intercalate, List.intercalate]
        rw [List.intersperse_cons_cons]
        rw [List.flatten_cons, List.flatten_cons]
        simp
      rw [hstep, jsSplitOnSpaceAux_append_space a _ [] (hfree a (by simp))]
      have ihr := ih (by simp) (fun x hx c hc => hfree x (by simp [hx]) c hc)
      rw [jsSplitOnSpace] at ihr
      simp only [List.reverse_nil, List.nil_append]
      rw [ihr]
      rfl

/-- Floor of a rational clamped to `[1, 65535]` equals the clamp of its
floor. -/
theorem floor_clamp (x : ℚ) : ⌊min (max x 1) 65535⌋ = max 1 (min ⌊x⌋ 65535) := by
  rcases le_total x 1 with h | h
  · rw [max_eq_right h, min_eq_left (by norm_num : (1:ℚ) ≤ 65535)]
    have h1 : ⌊x⌋ ≤ 1 := by
      have := Int.floor_le_floor h
      simpa using this
    rw [Int.floor_one]
    omega
  · rcases le_total x 65535 with h2 | h2
    · rw [max_eq_left h, min_eq_left h2]
      have h1 : 1 ≤ ⌊x⌋ := by
        rw [Int.le_floor]; exact_mod_cast h
      have h3 : ⌊x⌋ ≤ 65535 := by
        have h5 := Int.floor_le_floor h2
        have h4 : ⌊(65535:ℚ)⌋ = 65535 := by norm_num
        omega
      omega
    · rw [max_eq_left h, min_eq_right h2]
      have h1 : (65535:ℤ) ≤ ⌊x⌋ := by
        rw [Int.le_floor]; exact_mod_cast h2
      have h4 : ⌊(65535:ℚ)⌋ = (65535:ℤ) := by norm_num
      omega

/-- The clamp-then-floor-with-fallback step of `doSyncBird` always lands
in `[1, 65535]`, whatever JS number comes out of `cost + offset`. -/
theorem clamp_step_range (x : JSNum) :
    1 ≤ (if !((x.jmax (.fin 1)).jmin (.fin 65535)).isFinite then (1000:ℤ)
         else ((x.jmax (.fin 1)).jmin (.fin 65535)).floorInt)
    ∧ (if !((x.jmax (.fin 1)).jmin (.fin 65535)).isFinite then (1000:ℤ)
         else ((x.jmax (.fin 1)).jmin (.fin 65535)).floorInt) ≤ 65535 := by
  cases x with
  | nan => simp [JSNum.jmax, JSNum.jmin, JSNum.isFinite]
  | posInf =>
    simp only [JSNum.jmax, JSNum.jmin, JSNum.isFinite, JSNum.floorInt,
      Bool.not_true, if_false]
    norm_num
  | negInf =>
    simp only [JSNum.jmax, JSNum.jmin, JSNum.isFinite, JSNum.floorInt,
      Bool.not_true, if_false]
    constructor
    · rw [show min (1:ℚ) 65535 = 1 by norm_num]; simp
    · rw [show min (1:ℚ) 65535 = 1 by norm_num]; norm_num [Int.floor_one]
  | fin q =>
    simp only [JSNum.jmax, JSNum.jmin, JSNum.isFinite, JSNum.floorInt,
      Bool.not_true, if_false]
    rw [floor_clamp]
    omega

/-- Well-formed rule: every argument token is space-free (as
`iptables-save` renders the agent's own rules). -/
def WfRule (r : List String) : Prop :=
  ∀ a ∈ r, ∀ c ∈ a.data, c ≠ ' '

/-- Splitting a rendered dump line recovers `"-A" :: chain :: args` when
the chain name and the tokens are space-free. -/
theorem jsSplit_renderRule (chain : String) (args : List String)
    (hc : ∀ c ∈ chain.data, c ≠ ' ') (ha : WfRule args) :
    jsSplitOnSpace (renderRule chain args) = "-A" :: chain :: args := by
  rw [renderRule]
  rw [jsSplit_intercalate _ (by simp) ?_]
  · rw [List.map_map]
    have hid : (String.mk ∘ String.data) = id := funext fun _ => rfl
    rw [hid, List.map_id]
  · intro a hamem c hc2
    simp only [List.map_cons, List.mem_cons, List.mem_map] at hamem
    rcases hamem with h | h | h
    · subst h
      have h3 : c ∈ ['-', 'A'] := hc2
      fin_cases h3 <;> decide
    · subst h
      exact hc c hc2
    · rcases h with ⟨x, hx, hxa⟩
      subst hxa
      exact ha x hx c hc2

/-- The chain name occurs as a substring of every rendered line of the
chain. -/
theorem jsIncludes_renderRule_chain (chain : String) (args : List String) :
    jsIncludes (renderRule chain args) chain = true := by
  rw [jsIncludes, renderRule, decide_eq_true_eq]
  show chain.data <:+: _
  have hpre : ∃ t, List.intercalate [' '] ((chain :: args).map String.data)
      = chain.data ++ t := by
    cases args with
    | nil =>
      refine ⟨[], ?_⟩
      simp [List.intercalate]
    | cons b rest =>
      refine ⟨' ' :: List.intercalate [' '] ((b :: rest).map String.data), ?_⟩
      rw [List.map_cons, List.map_cons, List.intercalate, List.intercalate,
        List.intersperse_cons_cons, List.flatten_cons, List.flatten_cons]
      simp
  rcases hpre with ⟨t, ht⟩
  have hstep : List.intercalate [' '] (("-A" :: chain :: args).map String.data)
      = "-A".data ++ ' ' :: List.intercalate [' '] ((chain :: args).map String.data) := by
    rw [List.map_cons, List.map_cons, List.intercalate, List.intercalate,
      List.intersperse_cons_cons, List.flatten_cons, List.flatten_cons]
    simp
  rw [hstep, ht]
  exact ⟨"-A".data ++ [' '], t, by simp⟩

/-- Updating an association list in place at one key: lookup at that key
sees the update. -/
theorem find?_update_self {κ β : Type} [BEq κ] [LawfulBEq κ]
    (l : List (κ × β)) (k : κ) (f : β → β) :
    List.find? (fun p => p.1 == k)
      (l.map (fun p => if p.1 == k then (p.1, f p.2) else p))
      = (List.find? (fun p => p.1 == k) l).map (fun p => (p.1, f p.2)) := by
  induction l with
  | nil => rfl
  | cons hd tl ih =>
    by_cases hh : (hd.1 == k) = true
    · simp [List.find?_cons, hh]
    · simp [List.find?_cons, hh, ih]

/-- Updating an association list in place at one key: lookup at any other
key is unchanged. -/
theorem find?_update_ne {κ β : Type} [BEq κ] [LawfulBEq κ]
    (l : List (κ × β)) (k n : κ) (f : β → β) (hne : n ≠ k) :
    List.find? (fun p => p.1 == n)
      (l.map (fun p => if p.1 == k then (p.1, f p.2) else p))
      = List.find? (fun p => p.1 == n) l := by
  induction l with
  | nil => rfl
  | cons hd tl ih =>
    by_cases hh : (hd.1 == k) = true
    · have hp : (hd.1 == n) = false := by
        by_contra hcon
        rw [Bool.not_eq_false] at hcon
        exact hne (by rw [← eq_of_beq hcon, eq_of_beq hh])
      simp [List.find?_cons, hh, hp, ih]
    · by_cases hp : (hd.1 == n) = true
      · simp [List.find?_cons, hh, hp]
      · simp [List.find?_cons, hh, hp, ih]

/-- Removing all rows of one key: lookup at any other key is unchanged. -/
theorem find?_filterOut_ne {κ β : Type} [BEq κ] [LawfulBEq κ]
    (l : List (κ × β)) (k n : κ) (hne : n ≠ k) :
    List.find? (fun p => p.1 == n) (l.filter (fun p => p.1 != k))
      = List.find? (fun p => p.1 == n) l := by
  induction l with
  | nil => rfl
  | cons hd tl ih =>
    rw [List.filter_cons]
    by_cases hh : (hd.1 == k) = true
    · have hp : (hd.1 == n) = false := by
        by_contra hcon
        rw [Bool.not_eq_false] at hcon
        exact hne (by rw [← eq_of_beq hcon, eq_of_beq hh])
      rw [if_neg (by simp [bne, hh])]
      conv_rhs => rw [List.find?_cons]
      simp only [hp]
      exact ih
    · have hh' : (hd.1 == k) = false := by simpa using hh
      rw [if_pos (by simp [bne, hh'])]
      by_cases hp : (hd.1 == n) = true
      · simp only [List.find?_cons, hp]
      · have hp' : (hd.1 == n) = false := by simpa using hp
        simp only [List.find?_cons, hp']
        exact ih

/-- Removing all rows of one key: lookup at that key yields nothing. -/
theorem find?_filterOut_self {κ β : Type} [BEq κ] [LawfulBEq κ]
    (l : List (κ × β)) (k : κ) :
    List.find? (fun p => p.1 == k) (l.filter (fun p => p.1 != k)) = none := by
  induction l with
  | nil => rfl
  | cons hd tl ih =>
    rw [List.filter_cons]
    by_cases hh : (hd.1 == k) = true
    · rw [if_neg (by simp [bne, hh])]
      exact ih
    · have hh' : (hd.1 == k) = false := by simpa using hh
      rw [if_pos (by simp [bne, hh'])]
      simp only [List.find?_cons, hh']
      exact ih

/-- `setChainRules` at a chain: that chain's rules are transformed. -/
theorem chainRules_set_self (w : World) (tc : String × String)
    (f : List (List String) → List (List String)) :
    chainRules (setChainRules w tc f) tc = (chainRules w tc).map f := by
  show (List.find? _ (w.iptables.map _)).map _ = _
  rw [find?_update_self, chainRules]
  cases List.find? (fun p => p.1 == tc) w.iptables <;> rfl

/-- `setChainRules` at a chain: every other chain is unchanged. -/
theorem chainRules_set_ne (w : World) (tc tc' : String × String)
    (f : List (List String) → List (List String)) (h : tc' ≠ tc) :
    chainRules (setChainRules w tc f) tc' = chainRules w tc' := by
  show (List.find? _ (w.iptables.map _)).map _ = _
  rw [find?_update_ne _ _ _ _ h]
  rfl

/-- `setChainRules` does not change the key structure of the table. -/
theorem setChainRules_keys (w : World) (tc : String × String)
    (f : List (List String) → List (List String)) :
    (setChainRules w tc f).iptables.map (fun p => p.1)
      = w.iptables.map (fun p => p.1) := by
  show (w.iptables.map _).map _ = _
  rw [List.map_map]
  apply List.map_congr_left
  intro p _
  by_cases hh : (p.1 == tc) = true
  · simp [eq_of_beq hh]
  · have hne : p.1 ≠ tc := by simpa using hh
    simp [hne]

/-- What `tryAppendIptablesRuleW` does on success: only the addressed
chain can change, and then only by appending the rule. -/
theorem tryAppend_spec (w : World) (t c : String) (args : List String)
    (w' : World) (h : tryAppendIptablesRuleW w t c args = some w') :
    w'.wg = w.wg ∧ w'.wgkeys = w.wgkeys ∧ w'.kv = w.kv
    ∧ w'.iptables.map (fun p => p.1) = w.iptables.map (fun p => p.1)
    ∧ (∀ tc', tc' ≠ (t, c) → chainRules w' tc' = chainRules w tc')
    ∧ (chainRules w' (t, c) = chainRules w (t, c)
        ∨ chainRules w' (t, c) = (chainRules w (t, c)).map (fun C => C ++ [args])) := by
  rw [tryAppendIptablesRuleW] at h
  by_cases hchk : checkIptablesRuleW w t c args = true
  · rw [if_pos hchk] at h
    cases h
    exact ⟨rfl, rfl, rfl, rfl, fun _ _ => rfl, Or.inl rfl⟩
  · rw [if_neg hchk] at h
    cases hcr : chainRules w (t, c) with
    | none => rw [hcr] at h; cases h
    | some C =>
      rw [hcr] at h
      cases h
      refine ⟨rfl, rfl, rfl, setChainRules_keys w (t, c) _, ?_, ?_⟩
      · intro tc' hne
        exact chainRules_set_ne w (t, c) tc' _ hne
      · right
        rw [chainRules_set_self, hcr]

/-- What `tryDeleteIptablesRuleW` does: only the addressed chain can
change, and then only by erasing the first occurrence of the rule. -/
theorem tryDelete_spec (w : World) (t c : String) (args : List String) :
    (tryDeleteIptablesRuleW w t c args).wg = w.wg
    ∧ (tryDeleteIptablesRuleW w t c args).wgkeys = w.wgkeys
    ∧ (tryDeleteIptablesRuleW w t c args).iptables.map (fun p => p.1)
        = w.iptables.map (fun p => p.1)
    ∧ (∀ tc', tc' ≠ (t, c) →
        chainRules (tryDeleteIptablesRuleW w t c args) tc' = chainRules w tc')
    ∧ (chainRules (tryDeleteIptablesRuleW w t c args) (t, c) = chainRules w (t, c)
        ∨ chainRules (tryDeleteIptablesRuleW w t c args) (t, c)
            = (chainRules w (t, c)).map (fun C => C.erase args)) := by
  rw [tryDeleteIptablesRuleW]
  by_cases hchk : checkIptablesRuleW w t c args = true
  · rw [if_pos hchk]
    refine ⟨rfl, rfl, setChainRules_keys w (t, c) _, ?_, ?_⟩
    · intro tc' hne
      exact chainRules_set_ne w (t, c) tc' _ hne
    · right
      rw [chainRules_set_self]
  · rw [if_neg hchk]
    exact ⟨rfl, rfl, rfl, fun _ _ => rfl, Or.inl rfl⟩

/-- `doSyncCreateLocalUnderlay` cannot touch the WireGuard devices, the
iptables table or the key rows when it completes (the client branch
always throws before completing; the server branch only starts a unit
and writes the store). -/
theorem createUnderlay_frame (env : Env) (w : World) (ns : String)
    (peer : RemotePeer) (ifname : String) (w' : World)
    (h : doSyncCreateLocalUnderlay env w ns peer ifname = some w') :
    w'.wg = w.wg ∧ w'.iptables = w.iptables ∧ w'.wgkeys = w.wgkeys := by
  rw [doSyncCreateLocalUnderlay] at h
  split at h
  · exact Option.noConfusion (h : (none : Option World) = some w')
  · dsimp only at h
    split at h
    · exact Option.noConfusion (h : (none : Option World) = some w')
    · exact Option.noConfusion (h : (none : Option World) = some w')
  · dsimp only at h
    split at h
    · exact Option.noConfusion (h : (none : Option World) = some w')
    · cases h
      exact ⟨rfl, rfl, rfl⟩

/-- `doSyncPeerUnderlay` cannot touch the WireGuard devices, the iptables
table or the key rows when it completes. -/
theorem underlay_frame (env : Env) (w : World) (ns : String)
    (peer : RemotePeer) (w' : World)
    (h : doSyncPeerUnderlay env w ns peer = some w') :
    w'.wg = w.wg ∧ w'.iptables = w.iptables ∧ w'.wgkeys = w.wgkeys := by
  rw [doSyncPeerUnderlay] at h
  split at h
  · exact Option.noConfusion (h : (none : Option World) = some w')
  · dsimp only at h
    split at h
    · cases h
      exact ⟨rfl, rfl, rfl⟩
    · have hf := createUnderlay_frame env _ ns peer _ w' h
      exact ⟨hf.1, hf.2.1, hf.2.2⟩
    · cases h
      exact ⟨rfl, rfl, rfl⟩
    · split at h
      · have hf := createUnderlay_frame env _ ns peer _ w' h
        exact ⟨hf.1, hf.2.1, hf.2.2⟩
      · cases h
        exact ⟨rfl, rfl, rfl⟩

/-- `doSyncPeerEndpoint` leaves iptables and the key rows alone and can
change the device entry only at the addressed interface. -/
theorem endpoint_frame (w : World) (peer : RemotePeer) (ifname : String)
    (dev : WGDev) (w' : World)
    (h : doSyncPeerEndpoint w peer ifname dev = some w') :
    w'.iptables = w.iptables ∧ w'.wgkeys = w.wgkeys
    ∧ ∀ n, n ≠ ifname →
        List.find? (fun p => p.1 == n) w'.wg = List.find? (fun p => p.1 == n) w.wg := by
  rw [doSyncPeerEndpoint] at h
  cases hpk : dev.peerPublicKey with
  | none => rw [hpk] at h; cases h
  | some pk =>
    rw [hpk] at h
    dsimp only at h
    split at h
    · cases h; exact ⟨rfl, rfl, fun _ _ => rfl⟩
    · cases hfd : List.find? (fun p => p.1 == ifname) w.wg with
      | none => rw [hfd] at h; cases h
      | some e =>
        rw [hfd] at h
        cases h
        exact ⟨rfl, rfl, fun n hn => find?_update_ne w.wg ifname n
          (fun d => { d with keepalive :=
            if peer.keepalive == 0 then none else some peer.keepalive }) hn⟩

/-- Characters of a short ASCII literal are not spaces (helper). -/
theorem mem_lit_ne_space {cs : List Char} (hdec : cs.all (fun c => c != ' ') = true) :
    ∀ c ∈ cs, c ≠ ' ' := by
  intro c hc
  have := List.all_eq_true.mp hdec c hc
  simpa using this

/-- The UDP-accept rule `doSyncPeers` installs for a peer's listen port
has space-free tokens, provided the namespace name has no space. -/
theorem wfRule_peerRule (ns : String) (q : RemotePeer)
    (hns : ∀ c ∈ ns.data, c ≠ ' ') :
    WfRule ["-p", "udp", "--dport", toString q.listenPort, "-j", "ACCEPT",
      "-m", "comment", "--comment", "#peer_" ++ peerIfname ns q ++ "#"] := by
  intro a ha c hc
  simp only [List.mem_cons, List.not_mem_nil, or_false] at ha
  rcases ha with h|h|h|h|h|h|h|h|h|h
  · subst h; exact mem_lit_ne_space (by decide) c hc
  · subst h; exact mem_lit_ne_space (by decide) c hc
  · subst h; exact mem_lit_ne_space (by decide) c hc
  · subst h; exact toString_int_ne_space q.listenPort c hc
  · subst h; exact mem_lit_ne_space (by decide) c hc
  · subst h; exact mem_lit_ne_space (by decide) c hc
  · subst h; exact mem_lit_ne_space (by decide) c hc
  · subst h; exact mem_lit_ne_space (by decide) c hc
  · subst h; exact mem_lit_ne_space (by decide) c hc
  · subst h
    have hdata : ("#peer_" ++ peerIfname ns q ++ "#").data
        = "#peer_".data ++ (ns.data ++ "-".data ++ (toString q.id).data) ++ "#".data := by
      rw [peerIfname]
      simp only [String.data_append]
    rw [hdata] at hc
    simp only [List.mem_append] at hc
    rcases hc with (h | ((h | h) | h)) | h
    · exact mem_lit_ne_space (by decide) c h
    · exact hns c h
    · exact mem_lit_ne_space (by decide) c h
    · exact toString_int_ne_space q.id c h
    · exact mem_lit_ne_space (by decide) c h

/-- Appending a fresh row: lookup at its key finds it when no earlier row
matches. -/
theorem find?_append_singleton_self {κ β : Type} [BEq κ] [LawfulBEq κ]
    (l : List (κ × β)) (k : κ) (v : β)
    (h : List.find? (fun p => p.1 == k) l = none) :
    List.find? (fun p => p.1 == k) (l ++ [(k, v)]) = some (k, v) := by
  rw [List.find?_append, h]
  simp [List.find?_cons]

/-- Appending a row with another key: lookups elsewhere are unchanged. -/
theorem find?_append_singleton_ne {κ β : Type} [BEq κ] [LawfulBEq κ]
    (l : List (κ × β)) (k n : κ) (v : β) (hne : n ≠ k) :
    List.find? (fun p => p.1 == n) (l ++ [(k, v)])
      = List.find? (fun p => p.1 == n) l := by
  rw [List.find?_append]
  cases hf : List.find? (fun p => p.1 == n) l with
  | some e => rfl
  | none =>
    simp only [Option.none_or]
    have hkn : (k == n) = false := by
      simpa using Ne.symm hne
    simp [List.find?_cons, hkn]

/-- Equal iptables tables give equal chain lookups. -/
theorem chainRules_eq_of_iptables {w w' : World} (h : w'.iptables = w.iptables)
    (tc : String × String) : chainRules w' tc = chainRules w tc := by
  rw [chainRules, chainRules, h]

/-- What `CreateWireGuardDevice` does on success. -/
theorem create_spec (w : World) (name addr : String) (mtu : ℤ) (w' : World)
    (h : CreateWireGuardDevice w name addr mtu = some w') :
    List.find? (fun p => p.1 == name) w.wg = none
    ∧ w'.wg = w.wg ++ [(name, { addressCIDR := addr, mtu := mtu })]
    ∧ w'.iptables = w.iptables ∧ w'.wgkeys = w.wgkeys := by
  rw [CreateWireGuardDevice] at h
  split at h
  · exact Option.noConfusion (h : (none : Option World) = some w')
  · cases h
    next heq => exact ⟨heq, rfl, rfl, rfl⟩

/-- What `AssignWireGuardDevice` does on success. -/
theorem assign_spec (env : Env) (w : World) (name : String)
    (o : WGAssignOptions) (w' : World)
    (h : AssignWireGuardDevice env w name o = some w') :
    w'.iptables = w.iptables ∧ w'.wgkeys = w.wgkeys
    ∧ ∃ priv ep, o.privateKeyOpt = some priv
      ∧ w'.wg = w.wg.map (fun p =>
          if p.1 == name then (p.1, applyWGSet p.2 priv o ep) else p) := by
  rw [AssignWireGuardDevice] at h
  split at h
  · exact Option.noConfusion (h : (none : Option World) = some w')
  · next priv hpriv =>
    dsimp only at h
    split at h
    · exact Option.noConfusion (h : (none : Option World) = some w')
    · next ep heq =>
      split at h
      · exact Option.noConfusion (h : (none : Option World) = some w')
      · cases h
        exact ⟨rfl, rfl, priv, ep, hpriv, rfl⟩

/-- What `UpWireGuardDevice` does on success. -/
theorem up_spec (w : World) (name : String) (w' : World)
    (h : UpWireGuardDevice w name = some w') :
    w'.iptables = w.iptables ∧ w'.wgkeys = w.wgkeys
    ∧ w'.wg = w.wg.map (fun p =>
        if p.1 == name then (p.1, { p.2 with isUp := true }) else p) := by
  rw [UpWireGuardDevice] at h
  split at h
  · exact Option.noConfusion (h : (none : Option World) = some w')
  · cases h
    exact ⟨rfl, rfl, rfl⟩

/-- Per-peer step of the first loop: other device entries and other
chains are untouched; at most one well-formed rule is appended to
`filter/{ns}-INPUT`; and when the peer's interface was absent from the
snapshot, its device exists afterwards and carries the private key
selected by `peer.publicKey` (which must exist, and the live table had
no such interface before). -/
theorem processPeer_frame (env : Env) (ns : String)
    (dump : List (String × WGDev)) (keys : List (String × String))
    (w : World) (q : RemotePeer) (w₂ : World)
    (hns : ∀ c ∈ ns.data, c ≠ ' ')
    (h : processPeer env ns dump keys w q = some w₂) :
    (∀ n, n ≠ peerIfname ns q →
      List.find? (fun p => p.1 == n) w₂.wg = List.find? (fun p => p.1 == n) w.wg)
    ∧ w₂.wgkeys = w.wgkeys
    ∧ w₂.iptables.map (fun p => p.1) = w.iptables.map (fun p => p.1)
    ∧ (∀ tc, tc ≠ ("filter", ns ++ "-INPUT") → chainRules w₂ tc = chainRules w tc)
    ∧ (chainRules w₂ ("filter", ns ++ "-INPUT") = chainRules w ("filter", ns ++ "-INPUT")
        ∨ ∃ args, WfRule args ∧ chainRules w₂ ("filter", ns ++ "-INPUT")
            = (chainRules w ("filter", ns ++ "-INPUT")).map (fun C => C ++ [args]))
    ∧ (List.find? (fun p => p.1 == peerIfname ns q) dump = none →
        List.find? (fun p => p.1 == peerIfname ns q) w.wg = none
        ∧ ∃ priv, wgKeyMapLookup keys q.publicKey = some priv
          ∧ ∃ dev, List.find? (fun p => p.1 == peerIfname ns q) w₂.wg
              = some (peerIfname ns q, dev) ∧ dev.privateKey = some priv) := by
  rw [processPeer] at h
  cases hdmp : List.find? (fun p => p.1 == peerIfname ns q) dump with
  | some dev =>
    rw [hdmp] at h
    dsimp only at h
    cases hu : doSyncPeerUnderlay env w ns q with
    | none => rw [hu] at h; exact Option.noConfusion h
    | some w1 =>
      rw [hu] at h
      dsimp only at h
      have hf1 := underlay_frame env w ns q w1 hu
      have hlast : w₂.iptables = w.iptables ∧ w₂.wgkeys = w.wgkeys
          ∧ (∀ n, n ≠ peerIfname ns q →
              List.find? (fun p => p.1 == n) w₂.wg
                = List.find? (fun p => p.1 == n) w.wg) := by
        split at h
        · have hf2 := endpoint_frame w1 q (peerIfname ns q) dev.2 w₂ h
          refine ⟨hf2.1.trans hf1.2.1, hf2.2.1.trans hf1.2.2, ?_⟩
          intro n hn
          rw [hf2.2.2 n hn, hf1.1]
        · cases h
          exact ⟨hf1.2.1, hf1.2.2, fun n _ => by rw [hf1.1]⟩
      refine ⟨hlast.2.2, hlast.2.1, by rw [hlast.1], ?_, Or.inl ?_, ?_⟩
      · intro tc _
        exact chainRules_eq_of_iptables hlast.1 tc
      · exact chainRules_eq_of_iptables hlast.1 _
      · intro hpre
        exact Option.noConfusion hpre
  | none =>
    rw [hdmp] at h
    dsimp only at h
    cases hk : wgKeyMapLookup keys q.publicKey with
    | none => rw [hk] at h; exact Option.noConfusion h
    | some priv =>
      rw [hk] at h
      dsimp only at h
      cases hc : CreateWireGuardDevice w (peerIfname ns q) q.addressCIDR
          (withDefaultNumber q.mtu 1420) with
      | none => rw [hc] at h; exact Option.noConfusion h
      | some w1 =>
        rw [hc] at h
        dsimp only at h
        obtain ⟨hcold, hcwg, hcipt, hckeys⟩ := create_spec _ _ _ _ _ hc
        cases ha : AssignWireGuardDevice env w1 (peerIfname ns q)
            { privateKeyOpt := some priv, listenPort := some q.listenPort
              peerPublic := some q.peerPublicKey, endpoint := some q.endpoint
              keepalive := some q.keepalive, allowedIPs := some "0.0.0.0/0" } with
        | none => rw [ha] at h; exact Option.noConfusion h
        | some w2 =>
          rw [ha] at h
          dsimp only at h
          obtain ⟨haipt, hakeys, privA, ep, hpeq, hawg⟩ := assign_spec _ _ _ _ _ ha
          have hprivA : privA = priv := by
            have h2 : (some priv : Option String) = some privA := hpeq
            exact (Option.some.inj h2).symm
          rw [hprivA] at hawg
          cases hup : UpWireGuardDevice w2 (peerIfname ns q) with
          | none => rw [hup] at h; exact Option.noConfusion h
          | some w3 =>
            rw [hup] at h
            dsimp only at h
            obtain ⟨huipt, hukeys, huwg⟩ := up_spec _ _ _ hup
            have hw3find : ∃ d : WGDev,
                List.find? (fun p => p.1 == peerIfname ns q) w3.wg
                  = some (peerIfname ns q, d) ∧ d.privateKey = some priv := by
              rw [huwg,
                find?_update_self w2.wg (peerIfname ns q)
                  (fun d => { d with isUp := true }),
                hawg,
                find?_update_self w1.wg (peerIfname ns q)
                  (fun d => applyWGSet d priv
                    { privateKeyOpt := some priv, listenPort := some q.listenPort
                      peerPublic := some q.peerPublicKey, endpoint := some q.endpoint
                      keepalive := some q.keepalive, allowedIPs := some "0.0.0.0/0" } ep),
                hcwg,
                find?_append_singleton_self w.wg _ _ hcold]
              exact ⟨_, rfl, rfl⟩
            have hw3ne : ∀ n, n ≠ peerIfname ns q →
                List.find? (fun p => p.1 == n) w3.wg
                  = List.find? (fun p => p.1 == n) w.wg := by
              intro n hn
              rw [huwg,
                find?_update_ne w2.wg (peerIfname ns q) n
                  (fun d => { d with isUp := true }) hn,
                hawg,
                find?_update_ne w1.wg (peerIfname ns q) n
                  (fun d => applyWGSet d priv
                    { privateKeyOpt := some priv, listenPort := some q.listenPort
                      peerPublic := some q.peerPublicKey, endpoint := some q.endpoint
                      keepalive := some q.keepalive, allowedIPs := some "0.0.0.0/0" } ep)
                  hn,
                hcwg,
                find?_append_singleton_ne w.wg (peerIfname ns q) n _ hn]
            cases happ : (if q.listenPort ≠ 0 then
                tryAppendIptablesRuleW w3 "filter" (ns ++ "-INPUT")
                  ["-p", "udp", "--dport", toString q.listenPort, "-j", "ACCEPT",
                   "-m", "comment", "--comment", "#peer_" ++ peerIfname ns q ++ "#"]
              else some w3) with
            | none => rw [happ] at h; exact Option.noConfusion h
            | some w4 =>
              rw [happ] at h
              dsimp only at h
              have happ4 : w4.wg = w3.wg ∧ w4.wgkeys = w3.wgkeys
                  ∧ w4.iptables.map (fun p => p.1) = w3.iptables.map (fun p => p.1)
                  ∧ (∀ tc, tc ≠ ("filter", ns ++ "-INPUT") →
                      chainRules w4 tc = chainRules w3 tc)
                  ∧ (chainRules w4 ("filter", ns ++ "-INPUT")
                      = chainRules w3 ("filter", ns ++ "-INPUT")
                    ∨ ∃ args, WfRule args ∧ chainRules w4 ("filter", ns ++ "-INPUT")
                        = (chainRules w3 ("filter", ns ++ "-INPUT")).map
                            (fun C => C ++ [args])) := by
                by_cases hlp : q.listenPort ≠ 0
                · rw [if_pos hlp] at happ
                  obtain ⟨h1, h2, _, h4, h5, h6⟩ := tryAppend_spec _ _ _ _ _ happ
                  refine ⟨h1, h2, h4, h5, ?_⟩
                  rcases h6 with h6 | h6
                  · exact Or.inl h6
                  · exact Or.inr ⟨_, wfRule_peerRule ns q hns, h6⟩
                · rw [if_neg hlp] at happ
                  cases happ
                  exact ⟨rfl, rfl, rfl, fun _ _ => rfl, Or.inl rfl⟩
              have hfin : w₂.wg = w4.wg ∧ w₂.wgkeys = w4.wgkeys
                  ∧ w₂.iptables = w4.iptables := by
                split at h
                · have hf := underlay_frame env w4 ns q w₂ h
                  exact ⟨hf.1, hf.2.2, hf.2.1⟩
                · cases h
                  exact ⟨rfl, rfl, rfl⟩
              refine ⟨?_, ?_, ?_, ?_, ?_, ?_⟩
              · intro n hn
                rw [hfin.1, happ4.1, hw3ne n hn]
              · rw [hfin.2.1, happ4.2.1, hukeys, hakeys, hckeys]
              · rw [hfin.2.2, happ4.2.2.1, huipt, haipt, hcipt]
              · intro tc htc
                rw [chainRules_eq_of_iptables hfin.2.2 tc, happ4.2.2.2.1 tc htc,
                  chainRules_eq_of_iptables huipt tc,
                  chainRules_eq_of_iptables haipt tc,
                  chainRules_eq_of_iptables hcipt tc]
              · have hstep : chainRules w3 ("filter", ns ++ "-INPUT")
                    = chainRules w ("filter", ns ++ "-INPUT") := by
                  rw [chainRules_eq_of_iptables huipt,
                    chainRules_eq_of_iptables haipt,
                    chainRules_eq_of_iptables hcipt]
                rcases happ4.2.2.2.2 with h6 | ⟨args, hwf, h6⟩
                · exact Or.inl (by
                    rw [chainRules_eq_of_iptables hfin.2.2, h6, hstep])
                · exact Or.inr ⟨args, hwf, by
                    rw [chainRules_eq_of_iptables hfin.2.2, h6, hstep]⟩
              · intro _
                obtain ⟨d, hd1, hd2⟩ := hw3find
                refine ⟨hcold, priv, rfl, d, ?_, hd2⟩
                rw [hfin.1, happ4.1, hd1]

/-- Unfolding equation of the empty per-peer loop. -/
theorem processPeersLoop_nil (env : Env) (ns : String)
    (dump : List (String × WGDev)) (keys : List (String × String)) (w : World) :
    processPeersLoop env ns dump keys w [] = some w := rfl

/-- Unfolding equation of the per-peer loop on a cons. -/
theorem processPeersLoop_cons (env : Env) (ns : String)
    (dump : List (String × WGDev)) (keys : List (String × String))
    (w : World) (q : RemotePeer) (rest : List RemotePeer) :
    processPeersLoop env ns dump keys w (q :: rest)
      = match processPeer env ns dump keys w q with
        | none => none
        | some w' => processPeersLoop env ns dump keys w' rest := rfl

/-- Composing two option-mapped appends on a chain. -/
theorem optmap_append_comp (o : Option (List (List String)))
    (e₁ e₂ : List (List String)) :
    (o.map (fun C => C ++ e₁)).map (fun C => C ++ e₂)
      = o.map (fun C => C ++ (e₁ ++ e₂)) := by
  cases o <;> simp

/-- The first loop keeps other interfaces, the key rows and the chain
structure intact; `filter/{ns}-INPUT` only grows by well-formed rules. -/
theorem processPeersLoop_frame (env : Env) (ns : String)
    (dump : List (String × WGDev)) (keys : List (String × String))
    (hns : ∀ c ∈ ns.data, c ≠ ' ') :
    ∀ (peers : List RemotePeer) (w w₂ : World),
    processPeersLoop env ns dump keys w peers = some w₂ →
    (∀ n, (∀ q ∈ peers, n ≠ peerIfname ns q) →
        List.find? (fun p => p.1 == n) w₂.wg = List.find? (fun p => p.1 == n) w.wg)
    ∧ w₂.wgkeys = w.wgkeys
    ∧ w₂.iptables.map (fun p => p.1) = w.iptables.map (fun p => p.1)
    ∧ (∀ tc, tc ≠ ("filter", ns ++ "-INPUT") → chainRules w₂ tc = chainRules w tc)
    ∧ ∃ extra, (∀ r ∈ extra, WfRule r)
        ∧ chainRules w₂ ("filter", ns ++ "-INPUT")
            = (chainRules w ("filter", ns ++ "-INPUT")).map (fun C => C ++ extra) := by
  intro peers
  induction peers with
  | nil =>
    intro w w₂ h
    rw [processPeersLoop_nil] at h
    cases Option.some.inj h
    refine ⟨fun n _ => rfl, rfl, rfl, fun _ _ => rfl, [], ?_, ?_⟩
    · intro r hr
      cases hr
    · cases chainRules w ("filter", ns ++ "-INPUT") <;> simp
  | cons q rest ih =>
    intro w w₂ h
    rw [processPeersLoop_cons] at h
    cases hq : processPeer env ns dump keys w q with
    | none =>
      rw [hq] at h
      exact Option.noConfusion h
    | some w₁ =>
      rw [hq] at h
      dsimp only at h
      obtain ⟨F1, F2, F3, F4, F5, _⟩ := processPeer_frame env ns dump keys w q w₁ hns hq
      obtain ⟨G1, G2, G3, G4, extra, hextra, G5⟩ := ih w₁ w₂ h
      refine ⟨?_, G2.trans F2, G3.trans F3, ?_, ?_⟩
      · intro n hn
        have hrest : ∀ p ∈ rest, n ≠ peerIfname ns p :=
          fun p hp => hn p (List.mem_cons_of_mem q hp)
        rw [G1 n hrest, F1 n (hn q (List.mem_cons_self q rest))]
      · intro tc htc
        rw [G4 tc htc, F4 tc htc]
      · rcases F5 with F5 | ⟨args, hargs, F5⟩
        · exact ⟨extra, hextra, by rw [G5, F5]⟩
        · refine ⟨args :: extra, ?_, ?_⟩
          · intro r hr
            rcases List.mem_cons.mp hr with heq | hr2
            · subst heq
              exact hargs
            · exact hextra r hr2
          · rw [G5, F5, optmap_append_comp]
            rfl

/-- A created entry survives the remainder of the loop: a later peer
with the same interface name is also absent from the shared snapshot, so
it takes the create path, whose `ip link add` aborts on the live
collision. -/
theorem processPeersLoop_preserves (env : Env) (ns : String)
    (dump : List (String × WGDev)) (keys : List (String × String))
    (hns : ∀ c ∈ ns.data, c ≠ ' ') :
    ∀ (peers : List RemotePeer) (w w₂ : World) (n : String) (dev : WGDev),
    processPeersLoop env ns dump keys w peers = some w₂ →
    List.find? (fun p => p.1 == n) dump = none →
    List.find? (fun p => p.1 == n) w.wg = some (n, dev) →
    List.find? (fun p => p.1 == n) w₂.wg = some (n, dev) := by
  intro peers
  induction peers with
  | nil =>
    intro w w₂ n dev h _ hw
    rw [processPeersLoop_nil] at h
    cases Option.some.inj h
    exact hw
  | cons q rest ih =>
    intro w w₂ n dev h hdump hw
    rw [processPeersLoop_cons] at h
    cases hq : processPeer env ns dump keys w q with
    | none =>
      rw [hq] at h
      exact Option.noConfusion h
    | some w₁ =>
      rw [hq] at h
      dsimp only at h
      by_cases hn : n = peerIfname ns q
      · subst hn
        obtain ⟨_, _, _, _, _, F6⟩ := processPeer_frame env ns dump keys w q w₁ hns hq
        obtain ⟨habs, _⟩ := F6 hdump
        rw [hw] at habs
        exact Option.noConfusion habs
      · obtain ⟨F1, _⟩ := processPeer_frame env ns dump keys w q w₁ hns hq
        exact ih w₁ w₂ n dev h hdump (by rw [F1 n hn]; exact hw)

/-- Every peer absent from the snapshot ends the loop with a device
carrying the private key selected by its public key. -/
theorem processPeersLoop_created (env : Env) (ns : String)
    (dump : List (String × WGDev)) (keys : List (String × String))
    (hns : ∀ c ∈ ns.data, c ≠ ' ') :
    ∀ (peers : List RemotePeer) (w w₂ : World),
    processPeersLoop env ns dump keys w peers = some w₂ →
    ∀ p ∈ peers, List.find? (fun d => d.1 == peerIfname ns p) dump = none →
    ∃ priv, wgKeyMapLookup keys p.publicKey = some priv
      ∧ ∃ dev, List.find? (fun d => d.1 == peerIfname ns p) w₂.wg
          = some (peerIfname ns p, dev) ∧ dev.privateKey = some priv := by
  intro peers
  induction peers with
  | nil =>
    intro w w₂ _ p hp
    cases hp
  | cons q rest ih =>
    intro w w₂ h p hp hdump
    rw [processPeersLoop_cons] at h
    cases hq : processPeer env ns dump keys w q with
    | none =>
      rw [hq] at h
      exact Option.noConfusion h
    | some w₁ =>
      rw [hq] at h
      dsimp only at h
      rcases List.mem_cons.mp hp with heq | hp2
      · subst heq
        obtain ⟨_, _, _, _, _, F6⟩ := processPeer_frame env ns dump keys w p w₁ hns hq
        obtain ⟨_, priv, hpriv, dev, hdev, hkey⟩ := F6 hdump
        exact ⟨priv, hpriv, dev,
          processPeersLoop_preserves env ns dump keys hns rest w₁ w₂ _ dev h hdump hdev,
          hkey⟩
      · exact ih w₁ w₂ h p hp2 hdump

/-- `processPeer` aborts when the interface is absent from the snapshot
and no key row matches the peer's public key (the `getOrFail`
assertion). -/
theorem processPeer_none_of_no_key (env : Env) (ns : String)
    (dump : List (String × WGDev)) (keys : List (String × String))
    (w : World) (q : RemotePeer)
    (h1 : List.find? (fun d => d.1 == peerIfname ns q) dump = none)
    (h2 : wgKeyMapLookup keys q.publicKey = none) :
    processPeer env ns dump keys w q = none := by
  rw [processPeer, h1]
  dsimp only
  rw [h2]

/-- The loop aborts whenever some peer hits the missing-key assertion. -/
theorem processPeersLoop_none (env : Env) (ns : String)
    (dump : List (String × WGDev)) (keys : List (String × String)) :
    ∀ (peers : List RemotePeer) (w : World) (p : RemotePeer), p ∈ peers →
    List.find? (fun d => d.1 == peerIfname ns p) dump = none →
    wgKeyMapLookup keys p.publicKey = none →
    processPeersLoop env ns dump keys w peers = none := by
  intro peers
  induction peers with
  | nil =>
    intro w p hp
    cases hp
  | cons q rest ih =>
    intro w p hp h1 h2
    rw [processPeersLoop_cons]
    rcases List.mem_cons.mp hp with heq | hp2
    · subst heq
      rw [processPeer_none_of_no_key env ns dump keys w p h1 h2]
    · cases hq : processPeer env ns dump keys w q with
      | none => rfl
      | some w₁ =>
        dsimp only
        exact ih w₁ p hp2 h1 h2

/-- A member of a token list is an infix of its intercalation. -/
theorem infix_intercalate {α : Type} (sep : List α) :
    ∀ (L : List (List α)) (x : List α), x ∈ L → x <:+: List.intercalate sep L := by
  intro L
  induction L with
  | nil =>
    intro x hx
    cases hx
  | cons y rest ih =>
    intro x hx
    rcases List.mem_cons.mp hx with heq | hx2
    · subst heq
      cases rest with
      | nil =>
        have hy : List.intercalate sep [x] = x := by simp [List.intercalate]
        rw [hy]
      | cons b rest2 =>
        have hstep : List.intercalate sep (x :: b :: rest2)
            = x ++ (sep ++ List.intercalate sep (b :: rest2)) := by
          rw [List.intercalate, List.intercalate, List.intersperse_cons_cons,
            List.flatten_cons, List.flatten_cons]
        rw [hstep]
        exact ⟨[], sep ++ List.intercalate sep (b :: rest2), by simp⟩
    · cases rest with
      | nil => cases hx2
      | cons b rest2 =>
        have hstep : List.intercalate sep (y :: b :: rest2)
            = y ++ (sep ++ List.intercalate sep (b :: rest2)) := by
          rw [List.intercalate, List.intercalate, List.intersperse_cons_cons,
            List.flatten_cons, List.flatten_cons]
        rw [hstep]
        rcases ih x hx2 with ⟨s, t, hst⟩
        exact ⟨y ++ sep ++ s, t, by rw [← hst]; simp⟩

/-- Every argument token of a rendered rule occurs as a substring of the
line. -/
theorem jsIncludes_renderRule_arg (chain : String) (args : List String)
    (a : String) (ha : a ∈ args) :
    jsIncludes (renderRule chain args) a = true := by
  rw [jsIncludes, renderRule, decide_eq_true_eq]
  show a.data <:+: _
  refine infix_intercalate [' '] _ a.data ?_
  simp only [List.map_cons, List.mem_cons]
  right; right
  exact List.mem_map_of_mem String.data ha

/-- Occurrence count of one rule in one chain (0 when the chain is
missing). -/
def chainCount (w : World) (tc : String × String) (r : List String) : ℕ :=
  ((chainRules w tc).getD []).count r

/-- Counting after a map dominates the count of a preimage element. -/
theorem count_map_ge (f : List String → String) (r : List String) :
    ∀ l : List (List String), l.count r ≤ (l.map f).count (f r) := by
  intro l
  induction l with
  | nil => exact Nat.le_refl 0
  | cons b rest ih =>
    rw [List.map_cons]
    by_cases hb : (b == r) = true
    · have hfb : (f b == f r) = true := by rw [eq_of_beq hb]; simp
      have h1 : (b :: rest).count r = rest.count r + 1 := by
        simp [List.count_cons, hb]
      have h2 : (f b :: rest.map f).count (f r) = (rest.map f).count (f r) + 1 := by
        simp [List.count_cons, hfb]
      rw [h1, h2]
      exact Nat.add_le_add_right ih 1
    · have hb2 : (b == r) = false := by simpa using hb
      have h1 : (b :: rest).count r = rest.count r := by
        simp [List.count_cons, hb2]
      rw [h1, List.count_cons]
      exact ih.trans (Nat.le_add_right _ _)

/-- Count in a flattened list dominates the count in any member. -/
theorem count_flatten_ge (a : String) :
    ∀ (Ls : List (List String)) (L : List String), L ∈ Ls →
    L.count a ≤ Ls.flatten.count a := by
  intro Ls
  induction Ls with
  | nil =>
    intro L hL
    cases hL
  | cons M rest ih =>
    intro L hL
    rw [List.flatten_cons, List.count_append]
    rcases List.mem_cons.mp hL with heq | hL2
    · subst heq
      exact Nat.le_add_right _ _
    · exact (ih L hL2).trans (Nat.le_add_left _ _)

/-- The `iptables-save` dump of the `filter` table contains at least as
many copies of a rendered rule as the chain holds of the rule itself. -/
theorem dump_count_ge (w : World) (c : String) (r : List String) :
    chainCount w ("filter", c) r
      ≤ (dumpTableRules w "filter").count (renderRule c r) := by
  rw [chainCount, chainRules]
  cases hf : List.find? (fun p => p.1 == ("filter", c)) w.iptables with
  | none => simp
  | some pr =>
    have h0 := List.find?_some hf
    have hkey : pr.1 = ("filter", c) := eq_of_beq h0
    have hmem : pr ∈ w.iptables := List.mem_of_find?_eq_some hf
    have hmemf : pr ∈ w.iptables.filter (fun p => p.1.1 == "filter") := by
      refine List.mem_filter.mpr ⟨hmem, ?_⟩
      simp [hkey]
    have hblock : pr.2.map (renderRule pr.1.2)
        ∈ (w.iptables.filter (fun p => p.1.1 == "filter")).map
            (fun p => p.2.map (renderRule p.1.2)) :=
      List.mem_map_of_mem _ hmemf
    have h1 : pr.2.count r ≤ (pr.2.map (renderRule pr.1.2)).count (renderRule pr.1.2 r) :=
      count_map_ge _ _ _
    have h2 : (pr.2.map (renderRule pr.1.2)).count (renderRule pr.1.2 r)
        ≤ (dumpTableRules w "filter").count (renderRule pr.1.2 r) := by
      rw [dumpTableRules]
      exact count_flatten_ge _ _ _ hblock
    have hc : pr.1.2 = c := by rw [hkey]
    rw [hc] at h1 h2
    show pr.2.count r ≤ (dumpTableRules w "filter").count (renderRule c r)
    exact h1.trans h2

/-- A delete never increases the count of any rule in any chain. -/
theorem delete_count_le (w : World) (t c : String) (args : List String)
    (tc : String × String) (r : List String) :
    chainCount (tryDeleteIptablesRuleW w t c args) tc r ≤ chainCount w tc r := by
  obtain ⟨_, _, _, hne, hsame⟩ := tryDelete_spec w t c args
  by_cases htc : tc = (t, c)
  · subst htc
    rcases hsame with hsame | hsame
    · simp only [chainCount]
      rw [hsame]
    · simp only [chainCount]
      rw [hsame]
      cases hcr : chainRules w (t, c) with
      | none => exact Nat.le_refl _
      | some C => exact (C.erase_sublist args).count_le r
  · simp only [chainCount]
    rw [hne tc htc]

/-- Deleting the counted rule itself takes one occurrence off the
count. -/
theorem delete_count_succ (w : World) (t c : String) (r : List String) (k : ℕ)
    (h : chainCount w (t, c) r ≤ k + 1) :
    chainCount (tryDeleteIptablesRuleW w t c r) (t, c) r ≤ k := by
  rw [tryDeleteIptablesRuleW]
  by_cases hchk : checkIptablesRuleW w t c r = true
  · rw [if_pos hchk]
    rw [checkIptablesRuleW] at hchk
    cases hcr : chainRules w (t, c) with
    | none =>
      rw [hcr] at hchk
      exact Bool.noConfusion (hchk : false = true)
    | some C =>
      rw [hcr] at hchk
      have hmem : r ∈ C := by simpa using (hchk : C.contains r = true)
      have hcnt : C.count r ≤ k + 1 := by simpa [chainCount, hcr] using h
      have herase := List.count_erase_self r C
      have hpos : 0 < C.count r := List.count_pos_iff.mpr hmem
      show chainCount (setChainRules w (t, c) (fun rs => rs.erase r)) (t, c) r ≤ k
      rw [chainCount, chainRules_set_self, hcr]
      show (C.erase r).count r ≤ k
      omega
  · rw [if_neg hchk]
    rw [checkIptablesRuleW] at hchk
    cases hcr : chainRules w (t, c) with
    | none => simp [chainCount, hcr]
    | some C =>
      rw [hcr] at hchk
      have hmem : r ∉ C := by
        intro hr
        exact hchk (show C.contains r = true by simpa using hr)
      have hcount : C.count r = 0 := by
        rw [List.count_eq_zero]
        exact hmem
      simp [chainCount, hcr, hcount]

/-- The namespace INPUT chain name is space-free when the namespace
is. -/
theorem nsInput_ne_space (ns : String) (hns : ∀ c ∈ ns.data, c ≠ ' ') :
    ∀ c ∈ (ns ++ "-INPUT").data, c ≠ ' ' := by
  intro c hc
  rw [String.data_append] at hc
  rcases List.mem_append.mp hc with h | h
  · exact hns c h
  · exact mem_lit_ne_space (by decide) c h

/-- Unfolding equation of the empty purge loop. -/
theorem purgeStaleRules_nil (ns ifn : String) (w : World) :
    purgeStaleRules ns ifn [] w = w := rfl

/-- Unfolding equation of the purge loop on a cons. -/
theorem purgeStaleRules_cons (ns ifn line : String) (rest : List String)
    (w : World) :
    purgeStaleRules ns ifn (line :: rest) w
      = purgeStaleRules ns ifn rest
          (if jsIncludes line (ns ++ "-INPUT")
              && jsIncludes line ("#peer_" ++ ifn ++ "#") then
            tryDeleteIptablesRuleW w "filter" (ns ++ "-INPUT")
              ((jsSplitOnSpace line).drop 2)
          else w) := rfl

/-- Replaying every dump line that renders the rule empties the chain of
that rule: each matching line passes the two `includes` guards, its
`split(" ").slice(2)` recovers the argument vector, and the delete takes
one occurrence off. -/
theorem purgeStaleRules_count (ns ifn : String)
    (hns : ∀ c ∈ (ns ++ "-INPUT").data, c ≠ ' ')
    (r : List String) (hwfr : WfRule r)
    (htag : ("#peer_" ++ ifn ++ "#") ∈ r) :
    ∀ (lines : List String) (w : World),
    chainCount w ("filter", ns ++ "-INPUT") r
        ≤ lines.count (renderRule (ns ++ "-INPUT") r) →
    chainCount (purgeStaleRules ns ifn lines w) ("filter", ns ++ "-INPUT") r
      = 0 := by
  intro lines
  induction lines with
  | nil =>
    intro w hw
    rw [purgeStaleRules_nil]
    exact Nat.le_zero.mp (by simpa using hw)
  | cons line rest ih =>
    intro w hw
    rw [purgeStaleRules_cons]
    by_cases hline : line = renderRule (ns ++ "-INPUT") r
    · subst hline
      have hg : (jsIncludes (renderRule (ns ++ "-INPUT") r) (ns ++ "-INPUT")
          && jsIncludes (renderRule (ns ++ "-INPUT") r)
              ("#peer_" ++ ifn ++ "#")) = true := by
        rw [jsIncludes_renderRule_chain, jsIncludes_renderRule_arg _ _ _ htag]
        rfl
      rw [if_pos hg]
      have hsplit : (jsSplitOnSpace (renderRule (ns ++ "-INPUT") r)).drop 2 = r := by
        rw [jsSplit_renderRule _ _ hns hwfr]
        rfl
      rw [hsplit]
      apply ih
      apply delete_count_succ
      have hcount : (renderRule (ns ++ "-INPUT") r :: rest).count
            (renderRule (ns ++ "-INPUT") r)
          = rest.count (renderRule (ns ++ "-INPUT") r) + 1 :=
        List.count_cons_self _ _
      rw [hcount] at hw
      exact hw
    · have hbeq : (line == renderRule (ns ++ "-INPUT") r) = false := by
        simpa using hline
      have hcnt : (line :: rest).count (renderRule (ns ++ "-INPUT") r)
          = rest.count (renderRule (ns ++ "-INPUT") r) := by
        simp [List.count_cons, hbeq]
      have hle : chainCount (if jsIncludes line (ns ++ "-INPUT")
              && jsIncludes line ("#peer_" ++ ifn ++ "#") then
            tryDeleteIptablesRuleW w "filter" (ns ++ "-INPUT")
              ((jsSplitOnSpace line).drop 2)
          else w) ("filter", ns ++ "-INPUT") r
          ≤ chainCount w ("filter", ns ++ "-INPUT") r := by
        split
        · exact delete_count_le _ _ _ _ _ _
        · exact Nat.le_refl _
      apply ih
      exact hle.trans (hw.trans_eq hcnt)

/-- A delete only ever shrinks the addressed chain. -/
theorem tryDelete_sublist (w : World) (t c : String) (args : List String) :
    (tryDeleteIptablesRuleW w t c args).wg = w.wg
    ∧ (tryDeleteIptablesRuleW w t c args).wgkeys = w.wgkeys
    ∧ (∀ tc, tc ≠ (t, c) →
        chainRules (tryDeleteIptablesRuleW w t c args) tc = chainRules w tc)
    ∧ (chainRules w (t, c) = none →
        chainRules (tryDeleteIptablesRuleW w t c args) (t, c) = none)
    ∧ (∀ C, chainRules w (t, c) = some C →
        ∃ D, chainRules (tryDeleteIptablesRuleW w t c args) (t, c) = some D
          ∧ List.Sublist D C) := by
  obtain ⟨h1, h2, _, h4, h5⟩ := tryDelete_spec w t c args
  refine ⟨h1, h2, h4, ?_, ?_⟩
  · intro hn
    rcases h5 with h5 | h5
    · rw [h5, hn]
    · rw [h5, hn]
      rfl
  · intro C hC
    rcases h5 with h5 | h5
    · exact ⟨C, by rw [h5, hC], List.Sublist.refl C⟩
    · exact ⟨C.erase args, by rw [h5, hC]; rfl, C.erase_sublist args⟩

/-- The whole purge loop only ever shrinks the INPUT chain and touches
nothing else. -/
theorem purgeStaleRules_frame (ns ifn : String) :
    ∀ (lines : List String) (w : World),
    (purgeStaleRules ns ifn lines w).wg = w.wg
    ∧ (purgeStaleRules ns ifn lines w).wgkeys = w.wgkeys
    ∧ (∀ tc, tc ≠ ("filter", ns ++ "-INPUT") →
        chainRules (purgeStaleRules ns ifn lines w) tc = chainRules w tc)
    ∧ (chainRules w ("filter", ns ++ "-INPUT") = none →
        chainRules (purgeStaleRules ns ifn lines w) ("filter", ns ++ "-INPUT")
          = none)
    ∧ (∀ C, chainRules w ("filter", ns ++ "-INPUT") = some C →
        ∃ D, chainRules (purgeStaleRules ns ifn lines w) ("filter", ns ++ "-INPUT")
            = some D ∧ List.Sublist D C) := by
  intro lines
  induction lines with
  | nil =>
    intro w
    exact ⟨rfl, rfl, fun _ _ => rfl, fun h => h,
      fun C hC => ⟨C, hC, List.Sublist.refl C⟩⟩
  | cons line rest ih =>
    intro w
    rw [purgeStaleRules_cons]
    by_cases hg : (jsIncludes line (ns ++ "-INPUT")
        && jsIncludes line ("#peer_" ++ ifn ++ "#")) = true
    · rw [if_pos hg]
      obtain ⟨s1, s2, s3, s4, s5⟩ := tryDelete_sublist w "filter" (ns ++ "-INPUT")
        ((jsSplitOnSpace line).drop 2)
      obtain ⟨i1, i2, i3, i4, i5⟩ := ih (tryDeleteIptablesRuleW w "filter"
        (ns ++ "-INPUT") ((jsSplitOnSpace line).drop 2))
      refine ⟨i1.trans s1, i2.trans s2, ?_, ?_, ?_⟩
      · intro tc htc
        rw [i3 tc htc, s3 tc htc]
      · intro hn
        exact i4 (s4 hn)
      · intro C hC
        obtain ⟨D, hD, hsub⟩ := s5 C hC
        obtain ⟨E, hE, hsub2⟩ := i5 D hD
        exact ⟨E, hE, hsub2.trans hsub⟩
    · rw [if_neg hg]
      exact ih w

/-- All rules of the `filter/{ns}-INPUT` chain are space-free token
vectors (as the agent itself writes them). -/
def ChainWf (ns : String) (w : World) : Prop :=
  ∀ C, chainRules w ("filter", ns ++ "-INPUT") = some C → ∀ r ∈ C, WfRule r

/-- No rule of the `filter/{ns}-INPUT` chain carries the `#peer_{ifn}#`
comment tag. -/
def NoTagRules (ns : String) (w : World) (ifn : String) : Prop :=
  ∀ C, chainRules w ("filter", ns ++ "-INPUT") = some C →
    ∀ r ∈ C, ("#peer_" ++ ifn ++ "#") ∉ r

/-- One stale step: the device is removed, the key rows persist, other
chains are untouched, the INPUT chain only shrinks, and afterwards it
carries no rule tagged with the destroyed interface (given all its rules
are well-formed). -/
theorem processStale_spec (ns : String) (hns : ∀ c ∈ ns.data, c ≠ ' ')
    (w : World) (s : String) :
    (processStale ns w s).wg = w.wg.filter (fun p => p.1 != s)
    ∧ (processStale ns w s).wgkeys = w.wgkeys
    ∧ (∀ tc, tc ≠ ("filter", ns ++ "-INPUT") →
        chainRules (processStale ns w s) tc = chainRules w tc)
    ∧ (chainRules w ("filter", ns ++ "-INPUT") = none →
        chainRules (processStale ns w s) ("filter", ns ++ "-INPUT") = none)
    ∧ (∀ C, chainRules w ("filter", ns ++ "-INPUT") = some C →
        ∃ D, chainRules (processStale ns w s) ("filter", ns ++ "-INPUT")
            = some D ∧ List.Sublist D C)
    ∧ (ChainWf ns w → NoTagRules ns (processStale ns w s) s) := by
  have hps : processStale ns w s
      = purgeStaleRules ns s (dumpTableRules (tryDestroyDevice w s) "filter")
          (tryDestroyDevice w s) := rfl
  rw [hps]
  obtain ⟨p1, p2, p3, p4, p5⟩ := purgeStaleRules_frame ns s
    (dumpTableRules (tryDestroyDevice w s) "filter") (tryDestroyDevice w s)
  refine ⟨by rw [p1]; rfl, by rw [p2]; rfl, ?_, ?_, ?_, ?_⟩
  · intro tc htc
    rw [p3 tc htc]
    rfl
  · intro hn
    exact p4 hn
  · intro C hC
    exact p5 C hC
  · intro hwf C2 hC2 r hr htag
    cases hcr : chainRules w ("filter", ns ++ "-INPUT") with
    | none =>
      rw [p4 hcr] at hC2
      exact Option.noConfusion hC2
    | some C1 =>
      obtain ⟨D, hD, hsub⟩ := p5 C1 hcr
      rw [hD] at hC2
      cases Option.some.inj hC2
      have hwfr : WfRule r := hwf C1 hcr r (hsub.subset hr)
      have hbase : chainCount (tryDestroyDevice w s) ("filter", ns ++ "-INPUT") r
          ≤ (dumpTableRules (tryDestroyDevice w s) "filter").count
              (renderRule (ns ++ "-INPUT") r) := dump_count_ge _ _ _
      have hzero := purgeStaleRules_count ns s (nsInput_ne_space ns hns) r hwfr
        htag (dumpTableRules (tryDestroyDevice w s) "filter")
        (tryDestroyDevice w s) hbase
      have hpos : 0 < chainCount (purgeStaleRules ns s
          (dumpTableRules (tryDestroyDevice w s) "filter") (tryDestroyDevice w s))
          ("filter", ns ++ "-INPUT") r := by
        rw [chainCount, hD]
        exact List.count_pos_iff.mpr hr
      omega

/-- The stale fold: every processed interface ends up absent with its
tagged INPUT rules gone, everything else is untouched, and the INPUT
chain only shrinks. -/
theorem staleFold_spec (ns : String) (hns : ∀ c ∈ ns.data, c ≠ ' ') :
    ∀ (names : List String) (w : World), ChainWf ns w →
    (∀ n ∈ names,
        List.find? (fun p => p.1 == n) (names.foldl (processStale ns) w).wg = none)
    ∧ (∀ n, n ∉ names →
        List.find? (fun p => p.1 == n) (names.foldl (processStale ns) w).wg
          = List.find? (fun p => p.1 == n) w.wg)
    ∧ (∀ n ∈ names, NoTagRules ns (names.foldl (processStale ns) w) n)
    ∧ (∀ tc, tc ≠ ("filter", ns ++ "-INPUT") →
        chainRules (names.foldl (processStale ns) w) tc = chainRules w tc)
    ∧ (names.foldl (processStale ns) w).wgkeys = w.wgkeys
    ∧ (chainRules w ("filter", ns ++ "-INPUT") = none →
        chainRules (names.foldl (processStale ns) w) ("filter", ns ++ "-INPUT")
          = none)
    ∧ (∀ C, chainRules w ("filter", ns ++ "-INPUT") = some C →
        ∃ D, chainRules (names.foldl (processStale ns) w) ("filter", ns ++ "-INPUT")
            = some D ∧ List.Sublist D C) := by
  intro names
  induction names with
  | nil =>
    intro w _
    exact ⟨fun n hn => absurd hn (List.not_mem_nil n), fun n _ => rfl,
      fun n hn => absurd hn (List.not_mem_nil n), fun _ _ => rfl, rfl,
      fun h => h, fun C hC => ⟨C, hC, List.Sublist.refl C⟩⟩
  | cons s rest ih =>
    intro w hwf
    have hfold : (s :: rest).foldl (processStale ns) w
        = rest.foldl (processStale ns) (processStale ns w s) := rfl
    obtain ⟨q1, q2, q3, q4, q5, q6⟩ := processStale_spec ns hns w s
    have hwf1 : ChainWf ns (processStale ns w s) := by
      intro C1 hC1 r hr
      cases hcr : chainRules w ("filter", ns ++ "-INPUT") with
      | none =>
        rw [q4 hcr] at hC1
        exact Option.noConfusion hC1
      | some C0 =>
        obtain ⟨D, hD, hsub⟩ := q5 C0 hcr
        rw [hD] at hC1
        cases Option.some.inj hC1
        exact hwf C0 hcr r (hsub.subset hr)
    obtain ⟨i1, i2, i3, i4, i5, i6, i7⟩ := ih (processStale ns w s) hwf1
    rw [hfold]
    refine ⟨?_, ?_, ?_, ?_, ?_, ?_, ?_⟩
    · intro n hn
      by_cases hnr : n ∈ rest
      · exact i1 n hnr
      · have hns2 : n = s := by
          rcases List.mem_cons.mp hn with h | h
          · exact h
          · exact absurd h hnr
        subst hns2
        rw [i2 n hnr, q1]
        exact find?_filterOut_self w.wg n
    · intro n hn
      have hn1 : n ≠ s := fun h => hn (h ▸ List.mem_cons_self s rest)
      have hn2 : n ∉ rest := fun h => hn (List.mem_cons_of_mem s h)
      rw [i2 n hn2, q1, find?_filterOut_ne w.wg s n hn1]
    · intro n hn
      by_cases hnr : n ∈ rest
      · exact i3 n hnr
      · have hns2 : n = s := by
          rcases List.mem_cons.mp hn with h | h
          · exact h
          · exact absurd h hnr
        subst hns2
        have hstep : NoTagRules ns (processStale ns w n) n := q6 hwf
        intro C2 hC2 r hr
        cases hcr : chainRules (processStale ns w n) ("filter", ns ++ "-INPUT") with
        | none =>
          rw [i6 hcr] at hC2
          exact absurd hC2 (by simp)
        | some C1 =>
          obtain ⟨D, hD, hsub⟩ := i7 C1 hcr
          rw [hD] at hC2
          cases Option.some.inj hC2
          exact hstep C1 hcr r (hsub.subset hr)
    · intro tc htc
      rw [i4 tc htc, q3 tc htc]
    · rw [i5, q2]
    · intro hn
      exact i6 (q4 hn)
    · intro C hC
      obtain ⟨D, hD, hsub⟩ := q5 C hC
      obtain ⟨E, hE, hsub2⟩ := i7 D hD
      exact ⟨E, hE, hsub2.trans hsub⟩

/-- C3: after a successful `doSyncPeers` tick, every current peer whose
interface was absent from the pre-tick snapshot ends up with a WireGuard
device of name `{namespace}-{peer.id}` carrying the locally stored
private key paired with `peer.publicKey`; the tick aborts when that key
row is missing; every snapshotted interface matching no current peer is
destroyed and loses every `filter/{ns}-INPUT` rule tagged
`#peer_{ifname}#`; and no other chain is altered.  (Hypotheses: the
namespace name is space-free and the pre-existing INPUT rules have
space-free tokens, as `iptables-save` round-tripping presumes.) -/
theorem doSyncPeers_sync_invariant (env : Env) (ns : String)
    (peers : List RemotePeer) (w : World)
    (hns : ∀ c ∈ ns.data, c ≠ ' ')
    (hwf : ∀ C, chainRules w ("filter", ns ++ "-INPUT") = some C →
      ∀ r ∈ C, WfRule r) :
    (∀ w_f, doSyncPeers env ns peers w = some w_f →
      (∀ p ∈ peers, List.find? (fun d => d.1 == peerIfname ns p) w.wg = none →
        ∃ priv, wgKeyMapLookup w.wgkeys p.publicKey = some priv
          ∧ ∃ dev, List.find? (fun d => d.1 == peerIfname ns p) w_f.wg
              = some (peerIfname ns p, dev) ∧ dev.privateKey = some priv)
      ∧ (∀ e ∈ w.wg, (∀ p ∈ peers, peerIfname ns p ≠ e.1) →
          List.find? (fun d => d.1 == e.1) w_f.wg = none)
      ∧ (∀ e ∈ w.wg, (∀ p ∈ peers, peerIfname ns p ≠ e.1) →
          ∀ C, chainRules w_f ("filter", ns ++ "-INPUT") = some C →
            ∀ r ∈ C, ("#peer_" ++ e.1 ++ "#") ∉ r)
      ∧ (∀ tc, tc ≠ ("filter", ns ++ "-INPUT") →
          chainRules w_f tc = chainRules w tc))
    ∧ (∀ p ∈ peers, List.find? (fun d => d.1 == peerIfname ns p) w.wg = none →
        wgKeyMapLookup w.wgkeys p.publicKey = none →
        doSyncPeers env ns peers w = none) := by
  constructor
  · intro w_f h
    rw [doSyncPeers] at h
    dsimp only at h
    cases hloop : processPeersLoop env ns w.wg w.wgkeys w peers with
    | none =>
      rw [hloop] at h
      exact Option.noConfusion h
    | some w₁ =>
      rw [hloop] at h
      dsimp only at h
      cases Option.some.inj h
      obtain ⟨L1, L2, L3, L4, extra, hextra, L5⟩ :=
        processPeersLoop_frame env ns w.wg w.wgkeys hns peers w w₁ hloop
      have hwf₁ : ChainWf ns w₁ := by
        intro C hC r hr
        rw [L5] at hC
        cases hcr : chainRules w ("filter", ns ++ "-INPUT") with
        | none =>
          rw [hcr] at hC
          exact Option.noConfusion hC
        | some C0 =>
          rw [hcr] at hC
          cases Option.some.inj hC
          rcases List.mem_append.mp hr with h2 | h2
          · exact hwf C0 hcr r h2
          · exact hextra r h2
      obtain ⟨S1, S2, S3, S4, S5⟩ := staleFold_spec ns hns
        ((w.wg.map (fun p => p.1)).filter
          (fun n => !(peers.any (fun p => peerIfname ns p == n)))) w₁ hwf₁
      have hstaleOf : ∀ e ∈ w.wg, (∀ p ∈ peers, peerIfname ns p ≠ e.1) →
          e.1 ∈ (w.wg.map (fun p => p.1)).filter
            (fun n => !(peers.any (fun p => peerIfname ns p == n))) := by
        intro e he hne
        refine List.mem_filter.mpr ⟨List.mem_map_of_mem _ he, ?_⟩
        have hany : peers.any (fun q => peerIfname ns q == e.1) = false := by
          by_contra hcon
          rw [Bool.not_eq_false] at hcon
          obtain ⟨q, hq, hbeq⟩ := List.any_eq_true.mp hcon
          exact hne q hq (eq_of_beq hbeq)
        rw [hany]
        rfl
      refine ⟨?_, ?_, ?_, ?_⟩
      · intro p hp hpw
        obtain ⟨priv, hpriv, dev, hdev, hkey⟩ :=
          processPeersLoop_created env ns w.wg w.wgkeys hns peers w w₁ hloop p hp hpw
        have hnotstale : peerIfname ns p ∉ (w.wg.map (fun p => p.1)).filter
            (fun n => !(peers.any (fun p => peerIfname ns p == n))) := by
          intro hmem
          have hpred := (List.mem_filter.mp hmem).2
          have hany : peers.any (fun q => peerIfname ns q == peerIfname ns p) = true :=
            List.any_eq_true.mpr ⟨p, hp, by simp⟩
          rw [hany] at hpred
          exact absurd hpred (by simp)
        rw [S2 (peerIfname ns p) hnotstale]
        exact ⟨priv, hpriv, dev, hdev, hkey⟩
      · intro e he hne
        exact S1 e.1 (hstaleOf e he hne)
      · intro e he hne
        exact S3 e.1 (hstaleOf e he hne)
      · intro tc htc
        rw [S4 tc htc, L4 tc htc]
  · intro p hp h1 h2
    rw [doSyncPeers]
    dsimp only
    rw [processPeersLoop_none env ns w.wg w.wgkeys peers w p hp h1 h2]

/-- A concrete environment for the reconciliation witness: DNS resolves
every name to itself and UUIDs are drawn from a counter. -/
def syncWitnessEnv : Env :=
  { resolveEndpointString := fun s => some s
    resolveEndpointHost := fun s => some s
    uuids := fun n => toString n
    now := 0 }

/-- A concrete current peer (id 7) for the reconciliation witness. -/
def syncWitnessPeer : RemotePeer :=
  { id := 7
    publicKey := "PUB_A"
    peerPublicKey := "PUB_B"
    addressCIDR := "10.0.0.1/30"
    listenPort := 51820
    mtu := 0
    keepalive := 25
    endpoint := "peer.example:51820" }

/-- A concrete pre-tick world: one stale device `netA-9` with a tagged
INPUT rule, an unrelated nat chain, and the key row for the peer. -/
def syncWitnessWorld : World :=
  { wg := [("netA-9", { addressCIDR := "10.0.9.1/30", mtu := 1420 })]
    iptables := [(("filter", "netA-INPUT"),
        [["-p", "udp", "--dport", "51821", "-j", "ACCEPT",
          "-m", "comment", "--comment", "#peer_netA-9#"]]),
      (("nat", "POSTROUTING"), [["-j", "MASQUERADE"]])]
    wgkeys := [("PRIV_A", "PUB_A")]
    kv := []
    units := []
    uuidCount := 0 }

/-- Witness for `doSyncPeers_sync_invariant`: both hypotheses hold for a
concrete namespace, peer set and world, and the theorem instantiates. -/
theorem doSyncPeers_sync_invariant_witness :
    (∀ c ∈ "netA".data, c ≠ ' ')
    ∧ (∀ C, chainRules syncWitnessWorld ("filter", "netA" ++ "-INPUT") = some C →
        ∀ r ∈ C, WfRule r)
    ∧ ((∀ w_f, doSyncPeers syncWitnessEnv "netA" [syncWitnessPeer]
          syncWitnessWorld = some w_f →
        (∀ p ∈ [syncWitnessPeer],
          List.find? (fun d => d.1 == peerIfname "netA" p) syncWitnessWorld.wg
            = none →
          ∃ priv, wgKeyMapLookup syncWitnessWorld.wgkeys p.publicKey = some priv
            ∧ ∃ dev, List.find? (fun d => d.1 == peerIfname "netA" p) w_f.wg
                = some (peerIfname "netA" p, dev) ∧ dev.privateKey = some priv)
        ∧ (∀ e ∈ syncWitnessWorld.wg,
            (∀ p ∈ [syncWitnessPeer], peerIfname "netA" p ≠ e.1) →
            List.find? (fun d => d.1 == e.1) w_f.wg = none)
        ∧ (∀ e ∈ syncWitnessWorld.wg,
            (∀ p ∈ [syncWitnessPeer], peerIfname "netA" p ≠ e.1) →
            ∀ C, chainRules w_f ("filter", "netA" ++ "-INPUT") = some C →
              ∀ r ∈ C, ("#peer_" ++ e.1 ++ "#") ∉ r)
        ∧ (∀ tc, tc ≠ ("filter", "netA" ++ "-INPUT") →
            chainRules w_f tc = chainRules syncWitnessWorld tc))
      ∧ (∀ p ∈ [syncWitnessPeer],
          List.find? (fun d => d.1 == peerIfname "netA" p) syncWitnessWorld.wg
            = none →
          wgKeyMapLookup syncWitnessWorld.wgkeys p.publicKey = none →
          doSyncPeers syncWitnessEnv "netA" [syncWitnessPeer]
            syncWitnessWorld = none)) := by
  have hns : ∀ c ∈ "netA".data, c ≠ ' ' := by decide
  have hcr : chainRules syncWitnessWorld ("filter", "netA" ++ "-INPUT")
      = some [["-p", "udp", "--dport", "51821", "-j", "ACCEPT",
          "-m", "comment", "--comment", "#peer_netA-9#"]] := by decide
  have hwf : ∀ C, chainRules syncWitnessWorld ("filter", "netA" ++ "-INPUT")
      = some C → ∀ r ∈ C, WfRule r := by
    intro C hC
    rw [hcr] at hC
    cases Option.some.inj hC
    unfold WfRule
    decide
  exact ⟨hns, hwf, doSyncPeers_sync_invariant syncWitnessEnv "netA"
    [syncWitnessPeer] syncWitnessWorld hns hwf⟩

/-! ### Claim theorems: OSPF cost computation (C1, C7) -/

/-- C1 counterexample: a peer with `extra.ospf = {ping: true, cost: 1000,
offset: 5}` whose ping measurement returned no samples (the result map
holds the key with value `undefined`) gets emitted cost 1000, not the
1005 the claim requires: the `undefined` propagates as NaN through
`cost + offset` and the `Number.isFinite` guard replaces it by 1000,
ignoring both the configured cost and the offset. -/
theorem emittedCost_noSamples_counterexample :
    emittedCost (some { cost := .fin 1000, ping := true, offset := .fin 5 }) none = 1000
    ∧ emittedCost (some { cost := .fin 1000, ping := true, offset := .fin 5 }) none ≠ 1005 := by
  constructor <;> decide

/-- C1 (amended): the cost `doSyncBird` emits for a peer is
`clamp(1, floor(baseCost + offset), 65535)` where baseCost is the
measured ping when the measurement is available, else
`peer.extra.ospf.cost`, else 1000 — except that when a ping was
requested and the measurement yields no samples the emitted cost is the
fallback 1000, the offset not applied. -/
theorem emittedCost_spec (c o m : ℚ) (meas : Option JSNum) :
    emittedCost (some { cost := .fin c, ping := false, offset := .fin o }) meas
        = max 1 (min ⌊c + o⌋ 65535)
    ∧ emittedCost none meas = 1000
    ∧ emittedCost (some { cost := .fin c, ping := true, offset := .fin o }) (some (.fin m))
        = max 1 (min ⌊m + o⌋ 65535)
    ∧ emittedCost (some { cost := .fin c, ping := true, offset := .fin o }) none = 1000 := by
  refine ⟨?_, ?_, ?_, ?_⟩
  · simp only [emittedCost, costMapValue, pingRequested, jsAddU, JSNum.add,
      Bool.false_eq_true, if_false, JSNum.jmax, JSNum.jmin, JSNum.isFinite,
      Bool.not_true, JSNum.floorInt]
    rw [floor_clamp]
  · show (if !(JSNum.isFinite (JSNum.fin (min (max ((1000:ℚ) + 0) 1) 65535))) then (1000:ℤ)
      else JSNum.floorInt (JSNum.fin (min (max ((1000:ℚ) + 0) 1) 65535))) = 1000
    rw [show max ((1000:ℚ) + 0) 1 = 1000 by norm_num,
      show min (1000:ℚ) 65535 = 1000 by norm_num]
    simp only [JSNum.isFinite, JSNum.floorInt, Bool.not_true, Bool.false_eq_true, if_false]
    norm_num
  · simp only [emittedCost, costMapValue, pingRequested, jsAddU, JSNum.add,
      if_true, JSNum.jmax, JSNum.jmin, JSNum.isFinite, Bool.not_true, JSNum.floorInt]
    simp only [Bool.not_true, Bool.false_eq_true, if_false]
    rw [floor_clamp]
  · rfl

/-- C7: for every combination of `extra.ospf` contents (including absent
extra, non-integer costs, infinities) and every ping-measurement outcome
(including NaN-producing ones), the cost `doSyncBird` places in the OSPF
area configuration is an integer in `[1, 65535]`. -/
theorem emittedCost_range (extra : Option PeerOspf) (meas : Option JSNum) :
    1 ≤ emittedCost extra meas ∧ emittedCost extra meas ≤ 65535 := by
  have h := clamp_step_range (jsAddU
    (if pingRequested extra then meas
     else some (match extra with | some o => o.cost | none => JSNum.fin 1000))
    (match extra with | some o => o.offset | none => JSNum.fin 0))
  simpa only [emittedCost, costMapValue] using h

/-! ### Claim theorems: TrimmedMean (C4, C10) -/

/-- The two trim computations — `slice(k, n - k)` in the code and "drop
`k` from each tail" in the spec — agree. -/
theorem trim_slice_eq (xs : List ℚ) (k : ℕ) :
    ((xs.reverse.drop k).reverse) = xs.take (xs.length - k) := by
  rw [List.drop_reverse, List.reverse_reverse]

/-- C4: `TrimmedMean` implements the specified aggregation (it agrees
with the spec-worded `TrimmedMeanSpec` on every input); on the fixture
`[1,1,1,1,1,1,1,1,1,100]` it yields 1.0; for non-empty lists of at most
two samples it yields the untrimmed arithmetic mean; and for the empty
list it is absent. -/
theorem trimmedMean_spec :
    (∀ l : List ℚ, TrimmedMean l = TrimmedMeanSpec l)
    ∧ TrimmedMean [1,1,1,1,1,1,1,1,1,100] = some 1
    ∧ (∀ l : List ℚ, l ≠ [] → l.length ≤ 2 →
        TrimmedMean l = some (l.sum / (l.length : ℚ)))
    ∧ TrimmedMean ([] : List ℚ) = none := by
  refine ⟨?_, by norm_num [TrimmedMean, List.insertionSort, List.orderedInsert], ?_, by rfl⟩
  · intro l
    cases l with
    | nil => rfl
    | cons a t =>
      have hslen : ((a :: t).insertionSort (· ≤ ·)).length = (a :: t).length :=
        List.length_insertionSort _ _
      simp only [TrimmedMean, TrimmedMeanSpec]
      rw [if_neg (by simp)]
      rw [trim_slice_eq, List.length_drop, hslen]
      simp only [List.isEmpty_iff, ← List.length_eq_zero, Nat.lt_one_iff]
  · intro l hne hlen2
    have hpos : 0 < l.length := List.length_pos.mpr hne
    have hk : l.length / 10 = 0 := Nat.div_eq_of_lt (by omega)
    have hslen : (l.insertionSort (· ≤ ·)).length = l.length :=
      List.length_insertionSort _ _
    have hperm : List.Perm (l.insertionSort (· ≤ ·)) l :=
      List.perm_insertionSort _ _
    rw [TrimmedMean, if_neg (by omega)]
    simp only [hslen, hk, List.drop_zero, Nat.sub_zero]
    rw [show (l.insertionSort (· ≤ ·)).take l.length
        = l.insertionSort (· ≤ ·) by rw [← hslen]; exact List.take_length _]
    rw [if_neg (by omega)]
    rw [hperm.sum_eq, hslen]

/-- C10: for every non-empty sample list the trimmed slice is non-empty
(`2 * floor(n * 0.1) < n` for all `n ≥ 1`), so the fallback branch
returning the untrimmed mean is unreachable: `TrimmedMean` is the mean of
the trimmed slice for every non-empty input, and `undefined` only for the
empty list. -/
theorem trimmedMean_fallback_unreachable (l : List ℚ) (hne : l ≠ []) :
    2 * (l.length / 10) < l.length
    ∧ (((l.insertionSort (· ≤ ·)).drop (l.length / 10)).take
        (l.length - l.length / 10 - l.length / 10)).length
      = l.length - 2 * (l.length / 10)
    ∧ 1 ≤ (((l.insertionSort (· ≤ ·)).drop (l.length / 10)).take
        (l.length - l.length / 10 - l.length / 10)).length
    ∧ TrimmedMean l = some
        ((((l.insertionSort (· ≤ ·)).drop (l.length / 10)).take
            (l.length - l.length / 10 - l.length / 10)).sum /
         (((((l.insertionSort (· ≤ ·)).drop (l.length / 10)).take
            (l.length - l.length / 10 - l.length / 10)).length : ℕ) : ℚ)) := by
  have hpos : 0 < l.length := List.length_pos.mpr hne
  have hdiv : 10 * (l.length / 10) ≤ l.length := Nat.mul_div_le l.length 10
  have h2k : 2 * (l.length / 10) < l.length := by
    rcases Nat.eq_zero_or_pos (l.length / 10) with hz | hz
    · omega
    · omega
  have hslen : (l.insertionSort (· ≤ ·)).length = l.length :=
    List.length_insertionSort _ _
  have htlen : (((l.insertionSort (· ≤ ·)).drop (l.length / 10)).take
      (l.length - l.length / 10 - l.length / 10)).length
      = l.length - 2 * (l.length / 10) := by
    rw [List.length_take, List.length_drop, hslen]
    omega
  refine ⟨h2k, htlen, by omega, ?_⟩
  rw [TrimmedMean, if_neg (by omega)]
  simp only [hslen]
  rw [if_neg (by omega)]

/-- C10 witness: the two-sample list `[3, 5]`. -/
theorem trimmedMean_fallback_unreachable_witness :
    ([3, 5] : List ℚ) ≠ [] ∧ TrimmedMean [3, 5] = some 4 := by
  refine ⟨by decide, ?_⟩
  have h := trimmedMean_fallback_unreachable [3, 5] (by decide)
  rw [h.2.2.2]
  norm_num [List.insertionSort, List.orderedInsert]

/-- C4 witness: the two-sample list `[3, 5]` has mean 4. -/
theorem trimmedMean_spec_witness :
    ([3, 5] : List ℚ) ≠ [] ∧ ([3, 5] : List ℚ).length ≤ 2
    ∧ TrimmedMean [3, 5] = some 4 := by
  refine ⟨by decide, by decide, ?_⟩
  have h := trimmedMean_spec.2.2.1 [3, 5] (by decide) (by decide)
  rw [h]
  norm_num

/-! ### Claim theorems: simplekv TTL semantics (C6, C2) -/

/-- C6: on a `simplekv` row whose stored `expires` column is a number,
`_getKey` (hence `getLocalUnderlayState`) deletes the entry and returns
`undefined` exactly when `expires > now`; for `expires ≤ now` the stored
value is returned and the row is kept. -/
theorem kvGetKey_ttl_semantics {α : Type} (kv : SimpleKV α) (key k0 : String)
    (v : α) (e now : ℤ)
    (hfind : List.find? (fun r => r.1 == key) kv = some (k0, KVRow.mk v (some e))) :
    (e > now → kvGetKey kv key now = .ok (none, kvDeleteKey kv key)
      ∧ ∀ r ∈ kvDeleteKey kv key, r.1 ≠ key)
    ∧ (e ≤ now → kvGetKey kv key now = .ok (some v, kv)) := by
  constructor
  · intro hgt
    constructor
    · rw [kvGetKey, hfind]
      dsimp only
      rw [if_pos hgt]
      rfl
    · intro r hr
      rw [kvDeleteKey, List.mem_filter] at hr
      simpa using hr.2
  · intro hle
    rw [kvGetKey, hfind]
    dsimp only
    rw [if_neg (by omega)]

/-- C6 witness: a boolean-valued row with `expires = 5`, read at `now = 3`
(deleted, absent) and at `now = 7` (returned, kept). -/
theorem kvGetKey_ttl_semantics_witness :
    kvGetKey [("k", KVRow.mk true (some 5))] "k" 3 = .ok (none, ([] : SimpleKV Bool))
    ∧ kvGetKey [("k", KVRow.mk true (some 5))] "k" 7
      = .ok (some true, [("k", KVRow.mk true (some 5))]) := by
  constructor
  · have h := (kvGetKey_ttl_semantics [("k", KVRow.mk true (some 5))] "k" "k" true 5 3
      (by decide)).1 (by decide)
    exact h.1.trans rfl
  · exact (kvGetKey_ttl_semantics [("k", KVRow.mk true (some 5))] "k" "k" true 5 7
      (by decide)).2 (by decide)

/-- After the in-place branch of an upsert, the row found for the key is
the freshly written one. -/
theorem find?_upsert_replace {α : Type} (kv : SimpleKV α) (key : String)
    (row : KVRow α) (h : List.any kv (fun r => r.1 == key) = true) :
    List.find? (fun r => r.1 == key)
      (List.map (fun r => if r.1 == key then (key, row) else r) kv)
      = some (key, row) := by
  induction kv with
  | nil => simp at h
  | cons hd tl ih =>
    by_cases hh : (hd.1 == key) = true
    · rw [List.map_cons, if_pos hh, List.find?_cons_of_pos _ (by simp)]
    · rw [List.map_cons, if_neg hh, List.find?_cons_of_neg _ (by simp [hh])]
      exact ih (by simpa [List.any_cons, hh] using h)

/-- After the insert branch of an upsert (no existing row matches), the
row found for the key is the appended one. -/
theorem find?_upsert_append {α : Type} (kv : SimpleKV α) (key : String)
    (row : KVRow α) (h : List.any kv (fun r => r.1 == key) = false) :
    List.find? (fun r => r.1 == key) (kv ++ [(key, row)]) = some (key, row) := by
  induction kv with
  | nil => rw [List.nil_append, List.find?_cons_of_pos _ (by simp)]
  | cons hd tl ih =>
    simp only [List.any_cons, Bool.or_eq_false_iff] at h
    rw [List.cons_append, List.find?_cons_of_neg _ (by simp [h.1])]
    exact ih h.2

/-- `_getKey` right after `_setKey` with no TTL always throws: the row was
stored with a `NULL` expires column, and the read-back path parses that
column with `z.number()`. -/
theorem kvGetKey_after_set_no_ttl {α : Type} (kv : SimpleKV α) (key : String)
    (v : α) (now now2 : ℤ) :
    kvGetKey (kvSetKey kv key v none now) key now2
      = .error "ZodError: expires: Expected number, received null" := by
  rw [kvSetKey]
  dsimp only [Option.map]
  cases hany : List.any kv (fun r => r.1 == key) with
  | true => rw [if_pos rfl, kvGetKey, find?_upsert_replace kv key (KVRow.mk v none) hany]
  | false =>
    rw [if_neg (by simp), kvGetKey,
      find?_upsert_append kv key (KVRow.mk v none) hany]

/-- C2 (code bug): `setLocalUnderlayState` (which never sets a TTL, so
stores `expires = NULL`) followed by `getLocalUnderlayState` on the same
interface does not return the stored state — it always throws, because
`_getKey` parses the `expires` column with `z.number()`, which rejects
`null`.  The underlay record therefore never round-trips. -/
theorem getLocalUnderlayState_after_set_throws
    (kv : SimpleKV LocalUnderlayState) (ifname : String)
    (s : LocalUnderlayState) (now now2 : ℤ) :
    getLocalUnderlayState (setLocalUnderlayState kv ifname s now) ifname now2
      = .error "ZodError: expires: Expected number, received null" :=
  kvGetKey_after_set_no_ttl kv ("underlay-worker-" ++ ifname) s now now2

/-! ### Claim theorems: iptables rule check (C9) -/

/-- C9: `tryCheckIptablesRule` returns `true` on exit 0; returns `false`
on a non-zero exit whose stderr contains one of the two kernel messages
"Bad rule (does a matching rule exist in that chain?)" /
"No chain/target/match by that name"; and throws on every other non-zero
exit. -/
theorem tryCheckIptablesRule_spec (code : ℤ) (stderr : String) :
    (code = 0 → tryCheckIptablesRule code stderr = .ok true)
    ∧ (code ≠ 0 →
        (jsIncludes stderr "iptables: Bad rule (does a matching rule exist in that chain?)"
          || jsIncludes stderr "iptables: No chain/target/match by that name") = true →
        tryCheckIptablesRule code stderr = .ok false)
    ∧ (code ≠ 0 →
        (jsIncludes stderr "iptables: Bad rule (does a matching rule exist in that chain?)"
          || jsIncludes stderr "iptables: No chain/target/match by that name") = false →
        tryCheckIptablesRule code stderr
          = .error ("Failed to check iptables rule: " ++ stderr)) := by
  refine ⟨?_, ?_, ?_⟩ <;> intro h1 <;> try intro h2
  · rw [tryCheckIptablesRule, if_neg (by omega)]
  · rw [tryCheckIptablesRule, if_pos h1, if_pos h2]
  · rw [tryCheckIptablesRule, if_pos h1, if_neg (by simp [h2])]

/-- C9 witness: exit 0; exit 1 with the "Bad rule" message; exit 1 with
an unrelated message. -/
theorem tryCheckIptablesRule_spec_witness :
    tryCheckIptablesRule 0 "" = .ok true
    ∧ tryCheckIptablesRule 1
        "iptables: Bad rule (does a matching rule exist in that chain?)" = .ok false
    ∧ tryCheckIptablesRule 1 "boom"
      = .error ("Failed to check iptables rule: " ++ "boom") := by
  refine ⟨(tryCheckIptablesRule_spec 0 "").1 rfl, ?_, ?_⟩
  · exact (tryCheckIptablesRule_spec 1 _).2.1 (by decide) (by decide)
  · exact (tryCheckIptablesRule_spec 1 "boom").2.2 (by decide) (by decide)

/-! ### Claim theorems: OSPF parser (C5) -/

/-- C5: parsing the tab-indented fixture yields exactly one `RouterInfo`
under area `0.0.0.0` with the listed fields; and in general, for
`external`/`nssa-ext` lines, `metricType` is 2 exactly when a `metric2`
token appears, and `via`/`tag` are the tokens immediately following those
keywords when present (absent otherwise). -/
theorem parseOSPFState_fixture_and_external :
    parseOSPFState ["area 0.0.0.0", "\trouter 1.1.1.1", "\t\tdistance 10",
        "\t\tstubnet 10.0.0.0/30 metric 100",
        "\t\texternal 0.0.0.0/0 metric 20 metric2 via 1.1.1.2 tag 7"]
      = some ([("0.0.0.0",
          [{ routerId := "1.1.1.1", distance := 10, vlinks := [], routers := []
             stubnets := [{ network := "10.0.0.0/30", metric := 100 }]
             xnetworks := [], xrouters := []
             externals := [{ network := "0.0.0.0/0", metric := 20, metricType := 2,
                             via := some "1.1.1.2", tag := some "7" }]
             nssaExternals := [] }])], [])
    ∧ (∀ (sline : String) (e : ExternalEntry), parseExternalEntry sline = some e →
        (e.metricType = 2 ↔ "metric2" ∈ jsSplitOnSpace sline)
        ∧ (∀ i, (jsSplitOnSpace sline).findIdx? (fun p => p == "via") = some i →
            e.via = (jsSplitOnSpace sline).get? (i + 1))
        ∧ ((jsSplitOnSpace sline).findIdx? (fun p => p == "via") = none →
            e.via = none)
        ∧ (∀ i, (jsSplitOnSpace sline).findIdx? (fun p => p == "tag") = some i →
            e.tag = (jsSplitOnSpace sline).get? (i + 1))
        ∧ ((jsSplitOnSpace sline).findIdx? (fun p => p == "tag") = none →
            e.tag = none)) := by
  refine ⟨by decide, ?_⟩
  intro sline e he
  rw [parseExternalEntry] at he
  cases hm : ((jsSplitOnSpace sline).get? 3).bind jsParseInt with
  | none => rw [hm] at he; exact absurd he (by simp)
  | some metric =>
    rw [hm] at he
    dsimp only at he
    have he2 := Option.some.inj he
    subst he2
    refine ⟨?_, ?_, ?_, ?_, ?_⟩
    · constructor
      · intro h2
        by_cases hf : (List.find? (fun p => p == "metric2") (jsSplitOnSpace sline)).isSome
        · rcases Option.isSome_iff_exists.mp hf with ⟨x, hx⟩
          have hmem := List.mem_of_find?_eq_some hx
          have hx2 : x = "metric2" := by
            have := List.find?_some hx
            simpa using this
          rwa [hx2] at hmem
        · simp [hf] at h2
      · intro hmem
        have hf : (List.find? (fun p => p == "metric2") (jsSplitOnSpace sline)).isSome := by
          rw [List.find?_isSome]
          exact ⟨"metric2", hmem, by simp⟩
        simp [hf]
    · intro i hi
      simp only [hi]
    · intro hi
      simp only [hi]
    · intro i hi
      simp only [hi]
    · intro hi
      simp only [hi]

/-! ### Claim theorems: bird config generator (C8) -/

/-- A string starting with a literal whose first character differs cannot
equal the given literal. -/
theorem append3_ne (a b c t : String) (ha : a.data ≠ [])
    (hh : a.data.head? ≠ t.data.head?) : a ++ b ++ c ≠ t := by
  intro he
  apply hh
  have h2 : (a.data ++ b.data) ++ c.data = t.data := by
    rw [← String.data_append, ← String.data_append, he]
  rw [← h2]
  cases hd : a.data with
  | nil => exact absurd hd ha
  | cons x l => simp [hd]

/-- C8: empty exclude-CIDR lists produce the `{direction} all` filter and
no define; non-empty lists produce a define for the named set and a
filter accepting exactly when `net !~ SET`; and an interface block of the
OSPF config contains the `bfd yes;` entry if and only if the interface
has a BFD entry. -/
theorem birdConfig_filters_and_bfd :
    (∀ n d : String, formatLocalNetAndFilter n d [] =
        { defineText := "", filterText := d ++ " all" })
    ∧ (∀ (n d : String) (cidrs : List String), cidrs ≠ [] →
        formatLocalNetAndFilter n d cidrs =
          { defineText := "define " ++ n ++ "=[" ++ String.intercalate "," cidrs ++ "];"
            filterText := d ++ " filter \x7b\nif net !~ " ++ n
              ++ " then accept;\nelse reject;\n\x7d" })
    ∧ (∀ (bfdConfig : List (String × BFDConfig)) (name : String) (cfg : CommonOSPFConfig),
        "bfd yes;" ∈ ospfInterfaceParts bfdConfig name cfg
          ↔ (List.find? (fun p => p.1 == name) bfdConfig).isSome = true) := by
  refine ⟨fun n d => rfl, ?_, ?_⟩
  · intro n d cidrs hne
    rw [formatLocalNetAndFilter,
      if_neg (by simp [Nat.lt_one_iff, List.length_eq_zero, hne])]
  · intro bfdConfig name cfg
    constructor
    · intro hmem
      by_contra hb
      rw [ospfInterfaceParts, if_neg hb] at hmem
      have hhdr : "interface \"" ++ name ++ "\" \x7b" ≠ "bfd yes;" :=
        append3_ne _ _ _ _ (by decide) (by decide)
      have hcost : ∀ x ∈ (match cfg.cost with
          | some c => ["cost " ++ toString c ++ ";"]
          | none => ([] : List String)), x ≠ "bfd yes;" := by
        cases cfg.cost with
        | none => simp
        | some c =>
          intro x hx
          rw [List.mem_singleton] at hx
          subst hx
          exact append3_ne _ _ _ _ (by decide) (by decide)
      have htype : ∀ x ∈ (match cfg.type with
          | some t => ["type " ++ t ++ ";"]
          | none => ([] : List String)), x ≠ "bfd yes;" := by
        cases cfg.type with
        | none => simp
        | some t =>
          intro x hx
          rw [List.mem_singleton] at hx
          subst hx
          exact append3_ne _ _ _ _ (by decide) (by decide)
      have hauth : ∀ x ∈ (match cfg.auth with
          | some a =>
            if a.length > 0 then
              ["authentication cryptographic;\npassword \"" ++ a
                ++ "\" \x7b\nalgorithm hmac sha512;\n\x7d;"]
            else ([] : List String)
          | none => ([] : List String)), x ≠ "bfd yes;" := by
        cases cfg.auth with
        | none => simp
        | some a =>
          dsimp only
          by_cases hl : a.length > 0
          · rw [if_pos hl]
            intro x hx
            rw [List.mem_singleton] at hx
            subst hx
            exact append3_ne _ _ _ _ (by decide) (by decide)
          · rw [if_neg hl]
            simp
      simp only [List.append_assoc, List.mem_append, List.mem_singleton,
        List.not_mem_nil, or_false, false_or, List.mem_cons] at hmem
      rcases hmem with h | h | h | h | h
      · exact hhdr h.symm
      · exact (hcost _ h) rfl
      · exact (htype _ h) rfl
      · exact (hauth _ h) rfl
      · exact absurd h (by decide)
    · intro hb
      rw [ospfInterfaceParts, if_pos hb]
      simp

/-- C8 witness: a concrete non-empty export exclude list. -/
theorem birdConfig_filters_and_bfd_witness :
    formatLocalNetAndFilter "S" "export" ["10.0.0.0/30", "10.0.1.0/30"] =
      { defineText := "define S=[10.0.0.0/30,10.0.1.0/30];"
        filterText := "export filter \x7b\nif net !~ S then accept;\nelse reject;\n\x7d" } := by
  have h := birdConfig_filters_and_bfd.2.1 "S" "export" ["10.0.0.0/30", "10.0.1.0/30"]
    (by decide)
  rw [h]
  decide

/-- C5 witness: the fixture's external line, fed directly to the
external-entry parser. -/
theorem parseOSPFState_fixture_and_external_witness :
    parseExternalEntry "external 0.0.0.0/0 metric 20 metric2 via 1.1.1.2 tag 7"
      = some { network := "0.0.0.0/0", metric := 20, metricType := 2,
               via := some "1.1.1.2", tag := some "7" }
    ∧ ((2 : ℤ) = 2 ↔ "metric2" ∈ jsSplitOnSpace
        "external 0.0.0.0/0 metric 20 metric2 via 1.1.1.2 tag 7") := by
  refine ⟨by decide, ?_⟩
  have h := (parseOSPFState_fixture_and_external.2
    "external 0.0.0.0/0 metric 20 metric2 via 1.1.1.2 tag 7"
    { network := "0.0.0.0/0", metric := 20, metricType := 2,
      via := some "1.1.1.2", tag := some "7" } (by decide)).1
  exact h

end LspNet
